import Mathlib

/-!
Verification development for the semantic chunking and type-inference engine
(`semantic-chunker/chunker.py`).

Texts are modelled as `List Char`.  Python string operations (`strip`,
`split`, `lower`, the three regular expressions used by the chunker) are
embedded as executable Lean functions with the exact semantics the CPython
`re` module gives them on the patterns that occur in the source.

The token counter (`SemanticChunker.count_tokens`) delegates to an external
tokenizer when available and otherwise falls back to `len(text) // 4`; the
tokenizer is an external collaborator, so the chunker is parameterised by an
arbitrary counting function `countTokens`, and `fallback_count` is the
in-repo fallback `len(text) // 4`.
-/

/-- Convert a Lean string literal to the `List Char` text representation. -/
def str (s : String) : List Char := s.data

/-- The whitespace predicate used by Python `str.strip`, `str.split()` and
the `\s` regex class (ASCII range; the repository's inputs and patterns
contain no exotic Unicode whitespace). -/
def pyIsSpace (c : Char) : Bool :=
  c = ' ' || c = '\t' || c = '\n' || c = '\r' || c = '\x0b' || c = '\x0c'

/-- Python `str.strip()`: remove leading and trailing whitespace. -/
def pyStrip (s : List Char) : List Char :=
  ((s.dropWhile pyIsSpace).reverse.dropWhile pyIsSpace).reverse

/-- Python `str.lower()` on the alphabets occurring in the source: ASCII
letters and the Cyrillic block (А-Я and Ё). -/
def pyLowerChar (c : Char) : Char :=
  if 'A' ≤ c ∧ c ≤ 'Z' then Char.ofNat (c.toNat + 32)
  else if 'А' ≤ c ∧ c ≤ 'Я' then Char.ofNat (c.toNat + 32)
  else if c = 'Ё' then 'ё'
  else c

/-- Python `str.lower()` applied characterwise. -/
def pyLower (s : List Char) : List Char := s.map pyLowerChar

/-- Python `text.split(sep)` for a single-character separator: keeps empty
pieces, `"".split` gives `[""]`. -/
def splitOnChar (sep : Char) : List Char → List (List Char)
  | [] => [[]]
  | c :: rest =>
    let r := splitOnChar sep rest
    if c = sep then [] :: r
    else
      match r with
      | [] => [[c]]
      | h :: t => (c :: h) :: t

/-- `text.split("\n")`. -/
def splitNL (s : List Char) : List (List Char) := splitOnChar '\n' s

/-- Python `"\n".join(lines)`. -/
def joinNL : List (List Char) → List Char
  | [] => []
  | [x] => x
  | x :: y :: t => x ++ '\n' :: joinNL (y :: t)

/-- Python `" ".join(words)`. -/
def joinSpace : List (List Char) → List Char
  | [] => []
  | [x] => x
  | x :: y :: t => x ++ ' ' :: joinSpace (y :: t)

/-- Accumulator for Python `str.split()` (split on whitespace runs,
dropping empty pieces); `cur` holds the current word reversed. -/
def pySplitWsAux (cur : List Char) : List Char → List (List Char)
  | [] => if cur = [] then [] else [cur.reverse]
  | c :: rest =>
    if pyIsSpace c then
      if cur = [] then pySplitWsAux [] rest
      else cur.reverse :: pySplitWsAux [] rest
    else pySplitWsAux (c :: cur) rest

/-- Python `text.split()`: the whitespace-delimited words of `text`. -/
def pySplitWs (s : List Char) : List (List Char) := pySplitWsAux [] s

/-- Matching of the heading regex `^(#{1,6})\s+(.+)$` against one line
(lines contain no newline).  Returns `(level, group 2)` on success: the
run of 1-6 leading `#`, at least one whitespace character, and the greedy
remainder; when everything after the `#`-run is whitespace, backtracking
leaves a single whitespace character for `.+` provided the run has length
at least two. -/
def headingMatch (line : List Char) : Option (Nat × List Char) :=
  let m := (line.takeWhile (· = '#')).length
  let rest := line.drop m
  let w := (rest.takeWhile pyIsSpace).length
  if 1 ≤ m ∧ m ≤ 6 ∧ 1 ≤ w then
    if w < rest.length then some (m, rest.drop w)
    else if 2 ≤ w then some (m, rest.drop (w - 1))
    else none
  else none

/-- `re.split(r"\n\s*\n", text)`: scan for a `\n`, greedily extend over the
following whitespace run and backtrack to its last `\n`; the matched
separator is removed and splitting continues after it.  `cur` holds the
current piece reversed.  `fuel` bounds the number of characters still to
be consumed (every recursive call removes at least one); the wrapper
passes the input length, so the exhausted case is never reached. -/
def reSplitBlankAux : Nat → List Char → List Char → List (List Char)
  | _, cur, [] => [cur.reverse]
  | 0, cur, _ :: _ => [cur.reverse]
  | fuel + 1, cur, c :: rest =>
    if c = '\n' then
      let run := rest.takeWhile pyIsSpace
      let run2 := (run.reverse.dropWhile (fun d => ¬ d = '\n')).reverse
      if run2 = [] then reSplitBlankAux fuel (c :: cur) rest
      else cur.reverse :: reSplitBlankAux fuel [] (rest.drop run2.length)
    else reSplitBlankAux fuel (c :: cur) rest

/-- `re.split(r"\n\s*\n", text)`. -/
def reSplitBlank (s : List Char) : List (List Char) :=
  reSplitBlankAux s.length [] s

/-- `re.split(r"(?<=[.!?])\s+", text)`: a separator is a greedy whitespace
run whose preceding character is `.`, `!` or `?`; the lookbehind character
stays in the left piece.  `prev` is the character preceding the scan
position (a dummy blank at the start, where no lookbehind can succeed);
`fuel` bounds the characters still to be consumed as above. -/
def reSplitSentAux : Nat → Char → List Char → List Char → List (List Char)
  | _, _, cur, [] => [cur.reverse]
  | 0, _, cur, _ :: _ => [cur.reverse]
  | fuel + 1, prev, cur, c :: rest =>
    if (prev = '.' ∨ prev = '!' ∨ prev = '?') ∧ pyIsSpace c then
      let run := rest.takeWhile pyIsSpace
      cur.reverse ::
        reSplitSentAux fuel (run.getLastD c) [] (rest.drop run.length)
    else reSplitSentAux fuel c (c :: cur) rest

/-- `re.split(r"(?<=[.!?])\s+", text)`. -/
def reSplitSent (s : List Char) : List (List Char) :=
  reSplitSentAux s.length ' ' [] s

/-- Substring search: `re.search` for a pattern that is a literal. -/
def containsSub (pat : List Char) : List Char → Bool
  | [] => pat.isEmpty
  | c :: t => pat.isPrefixOf (c :: t) || containsSub pat t

/-- Scan forward over non-newline characters for an occurrence of the
literal `pat`; return the remainder after it.  Used for the `.*` gaps of
the one non-literal pattern (`.` does not match a newline). -/
def findAfterNoNL (pat : List Char) : List Char → Option (List Char)
  | [] => if pat = [] then some [] else none
  | c :: t =>
    if pat.isPrefixOf (c :: t) then some ((c :: t).drop pat.length)
    else if c = '\n' then none
    else findAfterNoNL pat t

/-- A chunk-type pattern: every pattern in the source is a literal except
`фамилия.*имя.*отчество`, which is three literals joined by `.*`. -/
inductive Pat where
  | lit : List Char → Pat
  | seq3 : List Char → List Char → List Char → Pat
deriving DecidableEq

/-- `re.search(pattern, s)` for the pattern shapes that occur in
`CHUNK_TYPE_PATTERNS`. -/
def matchPat (p : Pat) (s : List Char) : Bool :=
  match p with
  | .lit l => containsSub l s
  | .seq3 a b c => matchSeq3 a b c s
where
  /-- `re.search(a + ".*" + b + ".*" + c, s)`. -/
  matchSeq3 (a b c : List Char) : List Char → Bool
    | [] => a = [] && (match findAfterNoNL b [] with
        | some r => (findAfterNoNL c r).isSome
        | none => false)
    | x :: t =>
      (a.isPrefixOf (x :: t) &&
        (match findAfterNoNL b ((x :: t).drop a.length) with
         | some r => (findAfterNoNL c r).isSome
         | none => false)) ||
      matchSeq3 a b c t

/-- The ordered chunk-type taxonomy `CHUNK_TYPE_PATTERNS`, transcribed from
the source in its declared order with the patterns exactly as written
(note: `БИК`, `ФИО`, `ЕГРН` are uppercase in the source). -/
def passport_pats : List Pat :=
  [.lit (str "паспорт"), .lit (str "серия"), .lit (str "номер паспорт"),
   .lit (str "выдан"), .lit (str "код подразделения"),
   .lit (str "место рождения"), .lit (str "дата рождения"),
   .lit (str "гражданин"), .lit (str "удостоверяющ"), .lit (str "passport"),
   .lit (str "ФИО"), .seq3 (str "фамилия") (str "имя") (str "отчество")]

/-- `ndfl` patterns. -/
def ndfl_pats : List Pat :=
  [.lit (str "ндфл"), .lit (str "2-ндфл"), .lit (str "3-ндфл"),
   .lit (str "справка о доходах"), .lit (str "налоговый агент"),
   .lit (str "налогооблагаем"), .lit (str "вычет"), .lit (str "удержан"),
   .lit (str "исчислен"), .lit (str "налоговая база"),
   .lit (str "сумма дохода"), .lit (str "код дохода")]

/-- `questionnaire` patterns. -/
def questionnaire_pats : List Pat :=
  [.lit (str "анкет"), .lit (str "заявлени"), .lit (str "персональные данные"),
   .lit (str "согласие на обработку"), .lit (str "семейное положение"),
   .lit (str "образование"), .lit (str "место работы"), .lit (str "должность"),
   .lit (str "стаж"), .lit (str "контактные данные"), .lit (str "телефон"),
   .lit (str "email"), .lit (str "адрес проживания")]

/-- `bank_statement` patterns. -/
def bank_statement_pats : List Pat :=
  [.lit (str "выписка"), .lit (str "банковск"), .lit (str "остаток"),
   .lit (str "оборот"), .lit (str "дебет"), .lit (str "кредит"),
   .lit (str "расчетный счет"), .lit (str "корреспондент"),
   .lit (str "БИК"), .lit (str "swift")]

/-- `credit` patterns. -/
def credit_pats : List Pat :=
  [.lit (str "кредит"), .lit (str "займ"), .lit (str "ссуда"),
   .lit (str "процентная ставка"), .lit (str "график платежей"),
   .lit (str "погашение"), .lit (str "задолженност"), .lit (str "лимит"),
   .lit (str "кредитная история")]

/-- `employment` patterns. -/
def employment_pats : List Pat :=
  [.lit (str "трудов"), .lit (str "работодатель"), .lit (str "заработн"),
   .lit (str "оклад"), .lit (str "премия"), .lit (str "трудоустро"),
   .lit (str "увольнени"), .lit (str "приказ"), .lit (str "табель")]

/-- `property` patterns. -/
def property_pats : List Pat :=
  [.lit (str "недвижимост"), .lit (str "собственност"), .lit (str "кадастр"),
   .lit (str "ЕГРН"), .lit (str "право собственности"), .lit (str "квартир"),
   .lit (str "дом"), .lit (str "земельн"), .lit (str "площадь"),
   .lit (str "объект недвижимости")]

/-- `contract` patterns. -/
def contract_pats : List Pat :=
  [.lit (str "договор"), .lit (str "контракт"), .lit (str "соглашение"),
   .lit (str "условия договора"), .lit (str "обязательств"),
   .lit (str "сторон"), .lit (str "подписан"), .lit (str "срок действия")]

/-- `invoice` patterns. -/
def invoice_pats : List Pat :=
  [.lit (str "счет"), .lit (str "счёт"), .lit (str "фактура"),
   .lit (str "оплат"), .lit (str "платеж"), .lit (str "invoice"),
   .lit (str "payment"), .lit (str "к оплате"), .lit (str "реквизиты")]

/-- `risk` patterns. -/
def risk_pats : List Pat :=
  [.lit (str "риск"), .lit (str "просрочк"), .lit (str "штраф"),
   .lit (str "пени"), .lit (str "нарушени"), .lit (str "угроз"),
   .lit (str "опасност"), .lit (str "дефолт"), .lit (str "неплатеж")]

/-- `financial` patterns. -/
def financial_pats : List Pat :=
  [.lit (str "сумм"), .lit (str "стоимост"), .lit (str "цен"),
   .lit (str "бюджет"), .lit (str "финанс"), .lit (str "рубл"),
   .lit (str "доллар"), .lit (str "евро"), .lit (str "валют"),
   .lit (str "итого")]

/-- `SemanticChunker.CHUNK_TYPE_PATTERNS`: the fixed, ordered taxonomy
(Python dicts iterate in insertion order). -/
def CHUNK_TYPE_PATTERNS : List (List Char × List Pat) :=
  [(str "passport", passport_pats),
   (str "ndfl", ndfl_pats),
   (str "questionnaire", questionnaire_pats),
   (str "bank_statement", bank_statement_pats),
   (str "credit", credit_pats),
   (str "employment", employment_pats),
   (str "property", property_pats),
   (str "contract", contract_pats),
   (str "invoice", invoice_pats),
   (str "risk", risk_pats),
   (str "financial", financial_pats)]

/-- The loop of `infer_chunk_type`: first label any of whose patterns
matches, else `general`. -/
def findLabel : List (List Char × List Pat) → List Char → List Char
  | [], _ => str "general"
  | (lbl, pats) :: rest, s =>
    if pats.any (fun p => matchPat p s) then lbl else findLabel rest s

/-- `SemanticChunker.infer_chunk_type(heading, text)`: the combined text is
`f"{heading or ''} {text}".lower()`; the patterns themselves are matched
as written (case-sensitively) against it. -/
def infer_chunk_type (heading : Option (List Char)) (text : List Char) :
    List Char :=
  findLabel CHUNK_TYPE_PATTERNS (pyLower ((heading.getD []) ++ ' ' :: text))

/-- A section produced by `parse_headings`. -/
structure MDSection where
  heading : Option (List Char)
  heading_level : Nat
  content : List Char
  start_line : Nat
deriving DecidableEq, Repr

/-- A chunk record as assembled by the chunker. -/
structure Chunk where
  chunk_id : List Char
  document_id : List Char
  client_id : List Char
  chunk_index : Nat
  text : List Char
  heading : Option (List Char)
  heading_level : Nat
  chunk_type : List Char
  token_count : Nat
deriving DecidableEq, Repr

/-- `Config.CHUNK_SIZE` (default, no environment override). -/
def Config.CHUNK_SIZE : Int := 500

/-- `Config.CHUNK_OVERLAP` (default, no environment override). -/
def Config.CHUNK_OVERLAP : Int := 50

/-- The chunker's configuration state.  `countTokens` abstracts
`count_tokens` (an external tokenizer when available, otherwise the
in-repo fallback `fallback_count`). -/
structure SemanticChunker where
  chunk_size : Int
  chunk_overlap : Int
  countTokens : List Char → Nat

/-- The `len(text) // 4` fallback of `count_tokens`. -/
def fallback_count (s : List Char) : Nat := s.length / 4

/-- `SemanticChunker.__init__`: Python truthiness fallback
`chunk_size or Config.CHUNK_SIZE` — both `None` and `0` are replaced by
the configured default. -/
def SemanticChunker.init (count : List Char → Nat)
    (chunk_size chunk_overlap : Option Int) : SemanticChunker :=
  { chunk_size := match chunk_size with
      | none => Config.CHUNK_SIZE
      | some n => if n = 0 then Config.CHUNK_SIZE else n
    chunk_overlap := match chunk_overlap with
      | none => Config.CHUNK_OVERLAP
      | some n => if n = 0 then Config.CHUNK_OVERLAP else n
    countTokens := count }

/-- Python truthiness of the `heading` variable in `parse_headings`
(`None` and the empty string are falsy). -/
def headingTruthy : Option (List Char) → Bool
  | none => false
  | some h => ¬ h = []

/-- The in-progress state of the `parse_headings` line loop. -/
structure ParseState where
  sections : List MDSection
  heading : Option (List Char)
  heading_level : Nat
  content_lines : List (List Char)
  start_line : Nat

/-- One iteration of the `parse_headings` loop on line `line` with index
`i`: on a heading match, emit the current section when it has content
lines or a truthy heading AND its stripped content is non-empty or the
heading is truthy, then open a new section; otherwise accumulate the
line. -/
def parseStep (st : ParseState) (i : Nat) (line : List Char) : ParseState :=
  match headingMatch line with
  | some (level, htext) =>
    let st1 :=
      if st.content_lines ≠ [] ∨ headingTruthy st.heading then
        let content := pyStrip (joinNL st.content_lines)
        if content ≠ [] ∨ headingTruthy st.heading then
          { st with sections := st.sections ++
              [{ heading := st.heading, heading_level := st.heading_level,
                 content := content, start_line := st.start_line }] }
        else st
      else st
    { st1 with heading := some (pyStrip htext), heading_level := level,
               content_lines := [], start_line := i }
  | none => { st with content_lines := st.content_lines ++ [line] }

/-- The `for i, line in enumerate(lines)` loop of `parse_headings`. -/
def parseLinesAux (i : Nat) (st : ParseState) : List (List Char) → ParseState
  | [] => st
  | line :: rest => parseLinesAux (i + 1) (parseStep st i line) rest

/-- `SemanticChunker.parse_headings`: run the line loop over the
enumerated lines, then emit the final section when it has content lines
or a truthy heading (without re-checking the stripped content). -/
def parse_headings (text : List Char) : List MDSection :=
  let lines := splitNL text
  let st := parseLinesAux 0
    { sections := [], heading := none, heading_level := 0,
      content_lines := [], start_line := 0 } lines
  if st.content_lines ≠ [] ∨ headingTruthy st.heading then
    st.sections ++
      [{ heading := st.heading, heading_level := st.heading_level,
         content := pyStrip (joinNL st.content_lines),
         start_line := st.start_line }]
  else st.sections

/-- Decimal digits of a natural number (for the f-string chunk id). -/
def natStr (n : Nat) : List Char := (Nat.repr n).data

/-- `f"c_{document_id}_{chunk_index}"`. -/
def chunkId (document_id : List Char) (chunk_index : Nat) : List Char :=
  str "c_" ++ document_id ++ '_' :: natStr chunk_index

/-- Walk the reversed word list of `_get_overlap_text`, prepending each
word whose tokens still fit (`token_count + word_tokens > chunk_overlap`
breaks the loop); `acc` is the collected overlap in original order. -/
def collectOverlap (count : List Char → Nat) (overlapBudget : Int) :
    List (List Char) → Nat → List (List Char) → List (List Char)
  | [], _, acc => acc
  | w :: rest, tc, acc =>
    let wt := count w
    if (tc + wt : Int) > overlapBudget then acc
    else collectOverlap count overlapBudget rest (tc + wt) (w :: acc)

/-- `SemanticChunker._get_overlap_text(text)`: empty when the text is empty
or the overlap budget is non-positive; otherwise the trailing words of
`text` whose accumulated token count never exceeds the budget, joined
with single spaces and a trailing space (empty when no word fits). -/
def _get_overlap_text (C : SemanticChunker) (text : List Char) : List Char :=
  if text = [] ∨ C.chunk_overlap ≤ 0 then []
  else
    let words := pySplitWs text
    let ow := collectOverlap C.countTokens C.chunk_overlap words.reverse 0 []
    if ow ≠ [] then joinSpace ow ++ [' '] else []

/-- The mutable loop state of `split_section_into_chunks`. -/
structure SplitState where
  chunks : List Chunk
  cur_text : List Char
  cur_tokens : Nat
  idx : Nat

/-- The chunk record built from the current buffer at a flush: text is
the stripped buffer, the type is inferred from the unstripped buffer,
`tc` is the recorded token count. -/
def newChunk (heading : Option (List Char)) (hl : Nat)
    (document_id client_id : List Char) (st : SplitState) (tc : Nat) :
    Chunk :=
  { chunk_id := chunkId document_id st.idx,
    document_id := document_id, client_id := client_id,
    chunk_index := st.idx, text := pyStrip st.cur_text,
    heading := heading, heading_level := hl,
    chunk_type := infer_chunk_type heading st.cur_text,
    token_count := tc }

/-- Append one chunk built from the current buffer and advance the
index. -/
def emitChunk (heading : Option (List Char)) (hl : Nat)
    (document_id client_id : List Char) (st : SplitState) (tc : Nat) :
    SplitState :=
  { st with
    chunks := st.chunks ++ [newChunk heading hl document_id client_id st tc],
    idx := st.idx + 1 }

/-- The sentence loop body of `split_section_into_chunks`: skip empty
sentences; if the buffer plus the sentence would exceed the budget, flush
the non-empty buffer and restart it from the sentence alone, else append
the sentence plus a space. -/
def sentenceStep (C : SemanticChunker) (heading : Option (List Char))
    (hl : Nat) (document_id client_id : List Char) (st : SplitState)
    (sentence0 : List Char) : SplitState :=
  let sentence := pyStrip sentence0
  if sentence = [] then st
  else
    let sent_tokens := C.countTokens sentence
    if (st.cur_tokens + sent_tokens : Int) > C.chunk_size then
      let st1 := if st.cur_text ≠ [] then
          emitChunk heading hl document_id client_id st st.cur_tokens
        else st
      { st1 with cur_text := sentence ++ [' '], cur_tokens := sent_tokens }
    else
      { st with cur_text := st.cur_text ++ sentence ++ [' '],
                cur_tokens := st.cur_tokens + sent_tokens }

/-- The paragraph loop body of `split_section_into_chunks`: skip empty
paragraphs; an oversized paragraph flushes the buffer and is re-split by
sentences; a fitting paragraph that would overflow the buffer flushes it
and reseeds the buffer with the overlap text followed by the paragraph
(re-counting tokens of the new buffer); otherwise the paragraph is
appended with a blank-line separator (adding only its own tokens). -/
def paragraphStep (C : SemanticChunker) (heading : Option (List Char))
    (hl : Nat) (document_id client_id : List Char) (st : SplitState)
    (para0 : List Char) : SplitState :=
  let para := pyStrip para0
  if para = [] then st
  else
    let para_tokens := C.countTokens para
    if (para_tokens : Int) > C.chunk_size then
      let st1 := if st.cur_text ≠ [] then
          { emitChunk heading hl document_id client_id st st.cur_tokens with
            cur_text := [], cur_tokens := 0 }
        else st
      (reSplitSent para).foldl (sentenceStep C heading hl document_id client_id) st1
    else if (st.cur_tokens + para_tokens : Int) > C.chunk_size then
      let st1 := if st.cur_text ≠ [] then
          emitChunk heading hl document_id client_id st st.cur_tokens
        else st
      let ntext := _get_overlap_text C st.cur_text ++ para ++ ['\n', '\n']
      { st1 with cur_text := ntext, cur_tokens := C.countTokens ntext }
    else
      { st with cur_text := st.cur_text ++ para ++ ['\n', '\n'],
                cur_tokens := st.cur_tokens + para_tokens }

/-- The synthesized full text of a section:
`f"{'#' * heading_level} {heading}\n\n{content}" if heading else content`,
stripped (Python truthiness: a `None` or empty heading yields the bare
content). -/
def sectionFullText (sec : MDSection) : List Char :=
  pyStrip (match sec.heading with
    | some h =>
      if h = [] then sec.content
      else List.replicate sec.heading_level '#' ++ ' ' :: h ++
           '\n' :: '\n' :: sec.content
    | none => sec.content)

/-- `SemanticChunker.split_section_into_chunks`: empty full text emits
nothing; a full text within the budget is a single chunk (typed from the
section content); otherwise the paragraph/sentence accumulation runs and
a final non-empty buffer is flushed with a re-counted token total. -/
def split_section_into_chunks (C : SemanticChunker) (sec : MDSection)
    (document_id client_id : List Char) (start_index : Nat) :
    List Chunk × Nat :=
  let full_text := sectionFullText sec
  if full_text = [] then ([], start_index)
  else
    let token_count := C.countTokens full_text
    if (token_count : Int) ≤ C.chunk_size then
      ([{ chunk_id := chunkId document_id start_index,
          document_id := document_id, client_id := client_id,
          chunk_index := start_index, text := full_text,
          heading := sec.heading, heading_level := sec.heading_level,
          chunk_type := infer_chunk_type sec.heading sec.content,
          token_count := token_count }], start_index + 1)
    else
      let st0 : SplitState := ⟨[], [], 0, start_index⟩
      let st1 := (reSplitBlank full_text).foldl
        (paragraphStep C sec.heading sec.heading_level document_id client_id) st0
      let st2 := if pyStrip st1.cur_text ≠ [] then
          emitChunk sec.heading sec.heading_level document_id client_id st1
            (C.countTokens st1.cur_text)
        else st1
      (st2.chunks, st2.idx)

/-- `SemanticChunker.chunk_document`: empty or whitespace-only text yields
no chunks; otherwise the parsed sections (or one synthesized whole-text
section if the parser returned none) are split in order with a running
chunk index starting at 0. -/
def chunk_document (C : SemanticChunker)
    (text document_id client_id : List Char) : List Chunk :=
  if pyStrip text = [] then []
  else
    let sections0 := parse_headings text
    let sections := if sections0 = [] then
        [{ heading := none, heading_level := 0, content := text,
           start_line := 0 : MDSection }]
      else sections0
    (sections.foldl (fun acc sec =>
      let r := split_section_into_chunks C sec document_id client_id acc.2
      (acc.1 ++ r.1, r.2)) (([], 0) : List Chunk × Nat)).1

/-! ### Helper lemmas about the string primitives -/

theorem dropWhile_pyIsSpace_idem (l : List Char) :
    (l.dropWhile pyIsSpace).dropWhile pyIsSpace = l.dropWhile pyIsSpace := by
  induction l with
  | nil => rfl
  | cons x xs ih =>
    by_cases h : pyIsSpace x
    · simp [List.dropWhile_cons, h, ih]
    · simp [List.dropWhile_cons, h]

theorem head_dropWhile_not_pyIsSpace {l : List Char} {c : Char} {t : List Char}
    (h : l.dropWhile pyIsSpace = c :: t) : ¬ pyIsSpace c := by
  induction l with
  | nil => simp at h
  | cons x xs ih =>
    by_cases hx : pyIsSpace x
    · rw [List.dropWhile_cons_of_pos hx] at h; exact ih h
    · rw [List.dropWhile_cons_of_neg hx] at h
      cases h; exact hx

theorem dropWhile_of_head_not {l : List Char} {c : Char} {t : List Char}
    (h : l = c :: t) (hc : ¬ pyIsSpace c) : l.dropWhile pyIsSpace = l := by
  subst h; exact List.dropWhile_cons_of_neg hc

/-- `pyStrip s` is empty exactly when `s` is all-whitespace. -/
theorem pyStrip_eq_nil_iff {s : List Char} :
    pyStrip s = [] ↔ ∀ c ∈ s, pyIsSpace c := by
  unfold pyStrip
  rw [List.reverse_eq_nil_iff, List.dropWhile_eq_nil_iff]
  constructor
  · intro h c hc
    have hsplit := List.takeWhile_append_dropWhile (p := pyIsSpace) (l := s)
    rw [← hsplit] at hc
    rcases List.mem_append.1 hc with h1 | h2
    · exact List.mem_takeWhile_imp h1
    · exact h c (List.mem_reverse.2 h2)
  · intro h c hc
    have : c ∈ s.dropWhile pyIsSpace := List.mem_reverse.1 hc
    exact h c (List.dropWhile_subset pyIsSpace this)

/-- A string containing a non-whitespace character has non-empty strip. -/
theorem pyStrip_ne_nil_of_mem {s : List Char} {c : Char}
    (hc : c ∈ s) (hw : ¬ pyIsSpace c) : pyStrip s ≠ [] := by
  intro h
  exact hw (pyStrip_eq_nil_iff.1 h c hc)

/-- A non-empty stripped string contains a non-whitespace character. -/
theorem exists_nonws_of_pyStrip_ne_nil {s : List Char}
    (h : pyStrip s ≠ []) : ∃ c ∈ s, ¬ pyIsSpace c := by
  by_contra hall
  exact h (pyStrip_eq_nil_iff.2 (by
    intro c hc
    by_contra hcw
    exact hall ⟨c, hc, hcw⟩))

theorem head?_dropWhile_not_pyIsSpace {l : List Char} {c : Char}
    (h : (l.dropWhile pyIsSpace).head? = some c) : ¬ pyIsSpace c := by
  cases hd : l.dropWhile pyIsSpace with
  | nil => rw [hd] at h; simp at h
  | cons x t =>
    rw [hd] at h
    simp at h
    subst h
    exact head_dropWhile_not_pyIsSpace hd

theorem dropWhile_eq_self_of_head? {l : List Char}
    (h : ∀ c, l.head? = some c → ¬ pyIsSpace c) :
    l.dropWhile pyIsSpace = l := by
  cases l with
  | nil => rfl
  | cons x t => exact List.dropWhile_cons_of_neg (h x rfl)

theorem getLast?_dropWhile_pyIsSpace {l : List Char}
    (h : l.dropWhile pyIsSpace ≠ []) :
    (l.dropWhile pyIsSpace).getLast? = l.getLast? := by
  obtain ⟨t, ht⟩ := List.dropWhile_suffix (l := l) pyIsSpace
  conv_rhs => rw [← ht]
  rw [List.getLast?_append]
  cases hg : (l.dropWhile pyIsSpace).getLast? with
  | none => exact absurd (List.getLast?_eq_none_iff.1 hg) h
  | some x => rfl

/-- `pyStrip` is idempotent: a stripped string strips to itself. -/
theorem pyStrip_idem (s : List Char) : pyStrip (pyStrip s) = pyStrip s := by
  unfold pyStrip
  set u := s.dropWhile pyIsSpace with hu
  set v := u.reverse.dropWhile pyIsSpace with hv
  cases hve : v with
  | nil => simp [hve]
  | cons c t =>
    have hvne : v ≠ [] := by rw [hve]; simp
    have hchead : ¬ pyIsSpace c := by
      apply head?_dropWhile_not_pyIsSpace (l := u.reverse)
      rw [← hv, hve]; rfl
    have hune : u.reverse ≠ [] := by
      intro h0
      rw [h0] at hv
      exact hvne (by rw [hv]; rfl)
    have hd : ∃ d, u.head? = some d ∧ ¬ pyIsSpace d := by
      cases hue : u with
      | nil =>
        exact absurd (show u.reverse = [] by rw [hue]; rfl) hune
      | cons d t2 =>
        refine ⟨d, rfl, ?_⟩
        apply head_dropWhile_not_pyIsSpace (l := s)
        rw [← hu]
        exact hue
    obtain ⟨d, hdh, hdw⟩ := hd
    have hvlast : v.getLast? = some d := by
      rw [hv, getLast?_dropWhile_pyIsSpace (by rw [← hv]; exact hvne)]
      rw [List.getLast?_reverse, hdh]
    have h1 : v.reverse.dropWhile pyIsSpace = v.reverse := by
      apply dropWhile_eq_self_of_head?
      intro e he
      rw [List.head?_reverse, hvlast] at he
      cases he
      exact hdw
    have h2 : v.dropWhile pyIsSpace = v := by
      apply dropWhile_eq_self_of_head?
      intro e he
      rw [hve] at he
      cases he
      exact hchead
    rw [← hve, h1, List.reverse_reverse, h2]

theorem splitOnChar_ne_nil (sep : Char) (s : List Char) :
    splitOnChar sep s ≠ [] := by
  cases s with
  | nil => simp [splitOnChar]
  | cons c rest =>
    unfold splitOnChar
    by_cases h : c = sep
    · simp [h]
    · simp only [h, if_false]
      cases splitOnChar sep rest with
      | nil => simp
      | cons x t => simp

/-- Joining the newline-split pieces reproduces the text. -/
theorem joinNL_splitNL (s : List Char) : joinNL (splitNL s) = s := by
  unfold splitNL
  induction s with
  | nil => rfl
  | cons c rest ih =>
    unfold splitOnChar
    by_cases h : c = '\n'
    · simp only [h, if_true]
      cases hr : splitOnChar '\n' rest with
      | nil => exact absurd hr (splitOnChar_ne_nil '\n' rest)
      | cons x t =>
        rw [hr] at ih
        show joinNL ([] :: x :: t) = '\n' :: rest
        rw [show joinNL ([] :: x :: t) = [] ++ '\n' :: joinNL (x :: t) from rfl]
        rw [ih]
        simp [h]
    · simp only [h, if_false]
      cases hr : splitOnChar '\n' rest with
      | nil => exact absurd hr (splitOnChar_ne_nil '\n' rest)
      | cons x t =>
        rw [hr] at ih
        cases t with
        | nil =>
          show c :: x = c :: rest
          rw [show joinNL [x] = x from rfl] at ih
          rw [ih]
        | cons y t2 =>
          show (c :: x) ++ '\n' :: joinNL (y :: t2) = c :: rest
          rw [List.cons_append]
          rw [show x ++ '\n' :: joinNL (y :: t2) = joinNL (x :: y :: t2) from rfl]
          rw [ih]

/-- The pieces of the newline split contain every character of the text. -/
theorem splitNL_sound {s : List Char} {c : Char} (hc : c ∈ s)
    (hnl : ¬ c = '\n') : ∃ p ∈ splitNL s, c ∈ p := by
  induction s with
  | nil => simp at hc
  | cons x rest ih =>
    unfold splitNL splitOnChar
    by_cases h : x = '\n'
    · simp only [h, if_true]
      rcases List.mem_cons.1 hc with rfl | hc2
      · exact absurd h hnl
      · obtain ⟨p, hp, hcp⟩ := ih hc2
        exact ⟨p, List.mem_cons_of_mem _ hp, hcp⟩
    · simp only [h, if_false]
      cases hr : splitOnChar '\n' rest with
      | nil => exact absurd hr (splitOnChar_ne_nil '\n' rest)
      | cons p t =>
        show ∃ q ∈ (x :: p) :: t, c ∈ q
        rcases List.mem_cons.1 hc with rfl | hc2
        · exact ⟨c :: p, List.mem_cons_self _ _, List.mem_cons_self _ _⟩
        · obtain ⟨q, hq, hcq⟩ := ih hc2
          unfold splitNL at hq
          rw [hr] at hq
          rcases List.mem_cons.1 hq with rfl | hq2
          · exact ⟨x :: q, List.mem_cons_self _ _, List.mem_cons_of_mem _ hcq⟩
          · exact ⟨q, List.mem_cons_of_mem _ hq2, hcq⟩

/-! ### Claim theorems: empty input, constructor truthiness, classifier case bug -/

/-- C7: for every configuration and identifiers, an empty or
whitespace-only document makes `chunk_document` return the empty chunk
list (the embedding is a total function: the source raises no exception
on this path, it returns the empty list a caller may report). -/
theorem chunk_document_empty_input (C : SemanticChunker)
    (text document_id client_id : List Char)
    (h : pyStrip text = []) :
    chunk_document C text document_id client_id = [] := by
  unfold chunk_document
  rw [h]
  simp

/-- Witness for `chunk_document_empty_input` at the whitespace-only
document `" "`. -/
theorem chunk_document_empty_input_witness :
    chunk_document ⟨500, 50, fallback_count⟩ (str " ") (str "d") (str "c") = [] :=
  chunk_document_empty_input ⟨500, 50, fallback_count⟩ (str " ") (str "d")
    (str "c") (by decide)

/-- C9: `SemanticChunker.__init__` substitutes the configured defaults for
`None` and for `0` (Python truthiness), so no constructor arguments can
produce a zero `chunk_size` or `chunk_overlap`; yet `_get_overlap_text`
on a chunker whose overlap field is `0` always returns the empty
prefix. -/
theorem init_truthiness_defaults (count : List Char → Nat)
    (a b : Option Int) (t : List Char) (B : Int) :
    (SemanticChunker.init count (some 0) b).chunk_size = 500 ∧
    (SemanticChunker.init count a (some 0)).chunk_overlap = 50 ∧
    (SemanticChunker.init count none b).chunk_size = 500 ∧
    (SemanticChunker.init count a none).chunk_overlap = 50 ∧
    (SemanticChunker.init count a b).chunk_size ≠ 0 ∧
    (SemanticChunker.init count a b).chunk_overlap ≠ 0 ∧
    _get_overlap_text ⟨B, 0, count⟩ t = [] := by
  refine ⟨by simp [SemanticChunker.init, Config.CHUNK_SIZE],
          by simp [SemanticChunker.init, Config.CHUNK_OVERLAP],
          by simp [SemanticChunker.init, Config.CHUNK_SIZE],
          by simp [SemanticChunker.init, Config.CHUNK_OVERLAP], ?_, ?_, ?_⟩
  · cases a with
    | none => simp [SemanticChunker.init, Config.CHUNK_SIZE]
    | some n =>
      by_cases hn : n = 0
      · simp [SemanticChunker.init, hn, Config.CHUNK_SIZE]
      · simp [SemanticChunker.init, hn]
  · cases b with
    | none => simp [SemanticChunker.init, Config.CHUNK_OVERLAP]
    | some n =>
      by_cases hn : n = 0
      · simp [SemanticChunker.init, hn, Config.CHUNK_OVERLAP]
      · simp [SemanticChunker.init, hn]
  · unfold _get_overlap_text
    simp

/-- C4 (code bug): `infer_chunk_type` lowercases the combined text but the
patterns keep their source spelling, so the uppercase pattern `БИК` of
`bank_statement` can never match: the input text `"БИК"` classifies as
`general`, not `bank_statement` as case-insensitive matching would
give. -/
theorem infer_chunk_type_case_bug :
    infer_chunk_type none (str "БИК") = str "general" ∧
    Pat.lit (str "БИК") ∈ bank_statement_pats ∧
    str "general" ≠ str "bank_statement" := by
  refine ⟨by decide, by decide, by decide⟩

/-! ### Claim: classifier priority order (contract before financial) -/

theorem findLabel_first_match (L1 L2 : List (List Char × List Pat))
    (lbl : List Char) (pats : List Pat) (s : List Char)
    (h1 : ∀ lp ∈ L1, ∀ p ∈ lp.2, matchPat p s = false)
    (h2 : ∃ p ∈ pats, matchPat p s = true) :
    findLabel (L1 ++ (lbl, pats) :: L2) s = lbl := by
  induction L1 with
  | nil =>
    rw [List.nil_append]
    show (if (pats.any fun p => matchPat p s) = true then lbl
          else findLabel L2 s) = lbl
    rw [if_pos]
    exact List.any_eq_true.2 h2
  | cons hd tl ih =>
    obtain ⟨l0, p0⟩ := hd
    rw [List.cons_append]
    show (if (p0.any fun p => matchPat p s) = true then l0
          else findLabel (tl ++ (lbl, pats) :: L2) s) = lbl
    rw [if_neg]
    · exact ih (fun lp hlp => h1 lp (List.mem_cons_of_mem _ hlp))
    · intro hany
      obtain ⟨p, hp, hm⟩ := List.any_eq_true.1 hany
      have := h1 (l0, p0) (List.mem_cons_self _ _) p hp
      rw [this] at hm
      cases hm

/-- C3: `infer_chunk_type` walks the taxonomy in declared order and
returns the first matching label; in particular, when no pattern of the
seven labels preceding `contract` matches the (lowercased) combined
heading+text while some `contract` pattern does — e.g. together with a
`financial` pattern — the result is `contract`. -/
theorem infer_chunk_type_contract_priority (heading : Option (List Char))
    (text : List Char)
    (h1 : ∀ lp ∈ CHUNK_TYPE_PATTERNS.take 7, ∀ p ∈ lp.2,
      matchPat p (pyLower ((heading.getD []) ++ ' ' :: text)) = false)
    (h2 : ∃ p ∈ contract_pats,
      matchPat p (pyLower ((heading.getD []) ++ ' ' :: text)) = true)
    (_h3 : ∃ p ∈ financial_pats,
      matchPat p (pyLower ((heading.getD []) ++ ' ' :: text)) = true) :
    infer_chunk_type heading text = str "contract" := by
  unfold infer_chunk_type
  have hsplit : CHUNK_TYPE_PATTERNS =
      CHUNK_TYPE_PATTERNS.take 7 ++ (str "contract", contract_pats) ::
        [(str "invoice", invoice_pats), (str "risk", risk_pats),
         (str "financial", financial_pats)] := by
    rfl
  rw [hsplit]
  exact findLabel_first_match _ _ _ _ _ h1 h2

/-- Witness for `infer_chunk_type_contract_priority`: the text
`"договор сумма"` matches a `contract` pattern and a `financial` pattern
and nothing earlier, and classifies as `contract`. -/
theorem infer_chunk_type_contract_priority_witness :
    infer_chunk_type none (str "договор сумма") = str "contract" :=
  infer_chunk_type_contract_priority none (str "договор сумма")
    (by decide) (by decide) (by decide)

/-! ### Claim: the overlap-prefix algorithm -/

theorem collectOverlap_spec (count : List Char → Nat) (O : Int) :
    ∀ (l : List (List Char)) (tc : Nat) (acc : List (List Char)),
    ∃ k, collectOverlap count O l tc acc = (l.take k).reverse ++ acc ∧
      (k = 0 ∨ ((((l.take k).map count).sum + tc : Int) ≤ O)) := by
  intro l
  induction l with
  | nil =>
    intro tc acc
    exact ⟨0, rfl, Or.inl rfl⟩
  | cons w rest ih =>
    intro tc acc
    by_cases h : (tc + count w : Int) > O
    · refine ⟨0, ?_, Or.inl rfl⟩
      unfold collectOverlap
      rw [if_pos h]
      rfl
    · obtain ⟨k, hk, hsum⟩ := ih (tc + count w) (w :: acc)
      refine ⟨k + 1, ?_, Or.inr ?_⟩
      · unfold collectOverlap
        rw [if_neg h, hk]
        rw [List.take_succ_cons, List.reverse_cons, List.append_assoc]
        rfl
      · rw [List.take_succ_cons, List.map_cons, List.sum_cons]
        rcases hsum with rfl | hs
        · simp only [List.take_zero, List.map_nil, List.sum_nil, Nat.add_zero]
          push_neg at h
          omega
        · push_cast
          push_cast at hs
          omega

/-- C8: `_get_overlap_text` returns the empty prefix when the source text
is empty or the overlap budget is non-positive; otherwise it returns a
suffix of the text's word sequence (in original order, joined with single
spaces plus a trailing space, or empty when no word fits), collected
walking the words in reverse so that the sum of the collected words'
token counts never exceeds the budget. -/
theorem get_overlap_text_spec (C : SemanticChunker) (text : List Char) :
    ((text = [] ∨ C.chunk_overlap ≤ 0) → _get_overlap_text C text = []) ∧
    (¬(text = [] ∨ C.chunk_overlap ≤ 0) →
      ∃ ws, ws <:+ pySplitWs text ∧
        ((ws.map C.countTokens).sum : Int) ≤ C.chunk_overlap ∧
        _get_overlap_text C text =
          (if ws = [] then [] else joinSpace ws ++ [' '])) := by
  constructor
  · intro h
    unfold _get_overlap_text
    rw [if_pos h]
  · intro h
    have hO : 0 < C.chunk_overlap := by
      push_neg at h
      omega
    obtain ⟨k, hk, hsum⟩ :=
      collectOverlap_spec C.countTokens C.chunk_overlap
        (pySplitWs text).reverse 0 []
    rw [List.append_nil] at hk
    refine ⟨((pySplitWs text).reverse.take k).reverse, ?_, ?_, ?_⟩
    · refine ⟨((pySplitWs text).reverse.drop k).reverse, ?_⟩
      rw [← List.reverse_append, List.take_append_drop,
        List.reverse_reverse]
    · rcases hsum with rfl | hs
      · simp only [List.take_zero, List.reverse_nil, List.map_nil,
          List.sum_nil, Nat.cast_zero]
        omega
      · rw [List.map_reverse, List.sum_reverse]
        simpa using hs
    · unfold _get_overlap_text
      rw [if_neg h]
      show (if collectOverlap C.countTokens C.chunk_overlap
          (pySplitWs text).reverse 0 [] ≠ [] then
          joinSpace (collectOverlap C.countTokens C.chunk_overlap
            (pySplitWs text).reverse 0 []) ++ [' ']
        else []) = _
      rw [hk]
      by_cases hwse : ((pySplitWs text).reverse.take k).reverse = []
      · rw [if_pos hwse, if_neg (by rw [hwse]; intro hc; exact hc rfl)]
      · rw [if_neg hwse, if_pos (by intro hc; exact hwse hc)]

/-- Witness for `get_overlap_text_spec`: with a zero overlap budget the
prefix is empty. -/
theorem get_overlap_text_spec_witness :
    _get_overlap_text ⟨500, 0, fallback_count⟩ (str "abcd efgh") = [] :=
  (get_overlap_text_spec ⟨500, 0, fallback_count⟩ (str "abcd efgh")).1
    (Or.inr (by decide))

/-! ### parse_headings loop invariants -/

/-- One parse step never removes emitted sections and only appends
sections with non-empty content or a truthy (hence non-null) heading. -/
theorem parseStep_sections_ok {st : ParseState} (i : Nat) (line : List Char)
    (h : ∀ sec ∈ st.sections, sec.content ≠ [] ∨ sec.heading ≠ none) :
    ∀ sec ∈ (parseStep st i line).sections,
      sec.content ≠ [] ∨ sec.heading ≠ none := by
  unfold parseStep
  cases hm : headingMatch line with
  | none => exact h
  | some lv =>
    obtain ⟨level, htext⟩ := lv
    by_cases h1 : st.content_lines ≠ [] ∨ headingTruthy st.heading
    · rw [if_pos h1]
      by_cases h2 : pyStrip (joinNL st.content_lines) ≠ [] ∨
          headingTruthy st.heading
      · rw [if_pos h2]
        intro sec hsec
        simp only [List.mem_append, List.mem_singleton] at hsec
        rcases hsec with hold | rfl
        · exact h sec hold
        · rcases h2 with hc | ht
          · exact Or.inl hc
          · refine Or.inr ?_
            cases he : st.heading with
            | none => rw [he] at ht; cases ht
            | some x => simp
      · rw [if_neg h2]
        exact h
    · rw [if_neg h1]
      exact h

/-- The parse loop preserves the per-section soundness invariant. -/
theorem parseLinesAux_sections_ok :
    ∀ (lines : List (List Char)) (i : Nat) (st : ParseState),
    (∀ sec ∈ st.sections, sec.content ≠ [] ∨ sec.heading ≠ none) →
    ∀ sec ∈ (parseLinesAux i st lines).sections,
      sec.content ≠ [] ∨ sec.heading ≠ none := by
  intro lines
  induction lines with
  | nil => intro i st h; exact h
  | cons line rest ih =>
    intro i st h
    exact ih (i + 1) (parseStep st i line) (parseStep_sections_ok i line h)

/-- A step on a heading-matching line installs a non-`none` heading. -/
theorem parseStep_heading_some {st : ParseState} {i : Nat}
    {line : List Char}
    (h : st.heading ≠ none ∨ (headingMatch line).isSome) :
    (parseStep st i line).heading ≠ none := by
  unfold parseStep
  cases hm : headingMatch line with
  | none =>
    rcases h with hh | hs
    · exact hh
    · rw [hm] at hs; cases hs
  | some lv =>
    obtain ⟨level, htext⟩ := lv
    simp

/-- If the final loop state has no heading, no line ever matched and the
state merely accumulated every line in order. -/
theorem parseLinesAux_none :
    ∀ (lines : List (List Char)) (i : Nat) (st : ParseState),
    (parseLinesAux i st lines).heading = none →
    parseLinesAux i st lines =
      { st with content_lines := st.content_lines ++ lines } := by
  intro lines
  induction lines with
  | nil =>
    intro i st _
    show st = { st with content_lines := st.content_lines ++ [] }
    rw [List.append_nil]
  | cons line rest ih =>
    intro i st hnone
    show parseLinesAux (i + 1) (parseStep st i line) rest = _
    have hm : headingMatch line = none := by
      cases hm : headingMatch line with
      | none => rfl
      | some lv =>
        exfalso
        have h1 : (parseStep st i line).heading ≠ none :=
          parseStep_heading_some (Or.inr (by rw [hm]; rfl))
        have h2 : (parseLinesAux (i + 1) (parseStep st i line) rest).heading
            ≠ none := by
          cases hh : (parseStep st i line).heading with
          | none => exact absurd hh h1
          | some x =>
            have : ∀ (ls : List (List Char)) (j : Nat) (s2 : ParseState),
                s2.heading ≠ none →
                (parseLinesAux j s2 ls).heading ≠ none := by
              intro ls
              induction ls with
              | nil => intro j s2 hs2; exact hs2
              | cons l2 r2 ih2 =>
                intro j s2 hs2
                exact ih2 (j + 1) (parseStep s2 j l2)
                  (parseStep_heading_some (Or.inl hs2))
            exact this rest (i + 1) (parseStep st i line) h1
        exact h2 hnone
    have hstep : parseStep st i line =
        { st with content_lines := st.content_lines ++ [line] } := by
      unfold parseStep
      rw [hm]
    have hnone2 : (parseLinesAux (i + 1) (parseStep st i line) rest).heading
        = none := hnone
    rw [hstep] at hnone2 ⊢
    rw [ih (i + 1) _ hnone2]
    simp

/-! ### Claim: section emission rule of parse_headings -/

/-- C5 (amended): for every input with a non-whitespace character, every
section `parse_headings` returns has non-empty content or a non-null
heading.  (For whitespace-only input the final section is emitted without
re-checking its stripped content — see the counterexample.) -/
theorem parse_headings_sections_sound (text : List Char)
    (h : pyStrip text ≠ []) :
    ∀ sec ∈ parse_headings text, sec.content ≠ [] ∨ sec.heading ≠ none := by
  unfold parse_headings
  intro sec hsec
  by_cases hcond :
      (parseLinesAux 0
        { sections := [], heading := none, heading_level := 0,
          content_lines := [], start_line := 0 } (splitNL text)).content_lines
        ≠ [] ∨
      headingTruthy (parseLinesAux 0
        { sections := [], heading := none, heading_level := 0,
          content_lines := [], start_line := 0 } (splitNL text)).heading
  · rw [if_pos hcond] at hsec
    rcases List.mem_append.1 hsec with hold | hnew
    · exact parseLinesAux_sections_ok (splitNL text) 0 _
        (by intro s hs; cases hs) sec hold
    · rw [List.mem_singleton] at hnew
      subst hnew
      cases hh : (parseLinesAux 0
          { sections := [], heading := none, heading_level := 0,
            content_lines := [], start_line := 0 } (splitNL text)).heading with
      | some x => exact Or.inr (by simp [hh])
      | none =>
        refine Or.inl ?_
        have hst := parseLinesAux_none (splitNL text) 0
          { sections := [], heading := none, heading_level := 0,
            content_lines := [], start_line := 0 } hh
        show pyStrip (joinNL (parseLinesAux 0
          { sections := [], heading := none, heading_level := 0,
            content_lines := [], start_line := 0 } (splitNL text)).content_lines)
          ≠ []
        rw [hst]
        show pyStrip (joinNL ([] ++ splitNL text)) ≠ []
        rw [List.nil_append, joinNL_splitNL]
        exact h
  · rw [if_neg hcond] at hsec
    exact parseLinesAux_sections_ok (splitNL text) 0 _
      (by intro s hs; cases hs) sec hsec

/-- Witness for `parse_headings_sections_sound` at the one-character
document `"a"`. -/
theorem parse_headings_sections_sound_witness :
    ({ heading := none, heading_level := 0, content := str "a",
       start_line := 0 : MDSection }).content ≠ [] ∨
    ({ heading := none, heading_level := 0, content := str "a",
       start_line := 0 : MDSection }).heading ≠ none :=
  parse_headings_sections_sound (str "a") (by decide) _ (by decide)

/-- C5 counterexample: on the whitespace-only input `" "` the final
section is emitted with empty content and no heading, violating the
claimed uniform emission rule. -/
theorem parse_headings_final_rule_counterexample :
    parse_headings (str " ") =
      [{ heading := none, heading_level := 0, content := [],
         start_line := 0 }] ∧
    str " " ≠ [] := by
  refine ⟨by decide, by decide⟩

/-! ### split_section_into_chunks loop invariants -/

/-- Field correctness of one emitted chunk: identifiers, section heading
data, and a non-empty whitespace-trimmed text. -/
def ChunkGood (document_id client_id : List Char)
    (heading : Option (List Char)) (hl : Nat) (ch : Chunk) : Prop :=
  ch.document_id = document_id ∧ ch.client_id = client_id ∧
  ch.heading = heading ∧ ch.heading_level = hl ∧
  ch.text ≠ [] ∧ pyStrip ch.text = ch.text

/-- The chunks accumulated so far carry consecutive indices from `base`
with the matching ids, the running index is `base` plus their number, and
each chunk is field-correct. -/
def StChunksGood (base : Nat) (document_id client_id : List Char)
    (heading : Option (List Char)) (hl : Nat) (st : SplitState) : Prop :=
  st.idx = base + st.chunks.length ∧
  st.chunks.map Chunk.chunk_index = List.range' base st.chunks.length ∧
  st.chunks.map Chunk.chunk_id =
    (List.range' base st.chunks.length).map (chunkId document_id) ∧
  ∀ ch ∈ st.chunks, ChunkGood document_id client_id heading hl ch

/-- The buffer is empty or strips to something non-empty. -/
def CurOK (st : SplitState) : Prop :=
  st.cur_text = [] ∨ pyStrip st.cur_text ≠ []

theorem exists_nonws_of_stripped_ne_nil {s : List Char}
    (h : pyStrip s ≠ []) : ∃ c ∈ pyStrip s, ¬ pyIsSpace c :=
  exists_nonws_of_pyStrip_ne_nil (s := pyStrip s)
    (by rw [pyStrip_idem]; exact h)

theorem emitChunk_chunks (heading : Option (List Char)) (hl : Nat)
    (document_id client_id : List Char) (st : SplitState) (tc : Nat) :
    (emitChunk heading hl document_id client_id st tc).chunks =
      st.chunks ++ [newChunk heading hl document_id client_id st tc] := rfl

theorem emitChunk_idx (heading : Option (List Char)) (hl : Nat)
    (document_id client_id : List Char) (st : SplitState) (tc : Nat) :
    (emitChunk heading hl document_id client_id st tc).idx =
      st.idx + 1 := rfl

theorem emitChunk_cur_text (heading : Option (List Char)) (hl : Nat)
    (document_id client_id : List Char) (st : SplitState) (tc : Nat) :
    (emitChunk heading hl document_id client_id st tc).cur_text =
      st.cur_text := rfl

theorem emitChunk_good {base : Nat} {document_id client_id : List Char}
    {heading : Option (List Char)} {hl : Nat} {st : SplitState}
    (hst : StChunksGood base document_id client_id heading hl st)
    (hcur : pyStrip st.cur_text ≠ []) (tc : Nat) :
    StChunksGood base document_id client_id heading hl
      (emitChunk heading hl document_id client_id st tc) := by
  obtain ⟨hidx, hmapi, hmapid, hall⟩ := hst
  refine ⟨?_, ?_, ?_, ?_⟩
  · rw [emitChunk_idx, emitChunk_chunks, List.length_append,
      List.length_singleton, hidx]
    omega
  · rw [emitChunk_chunks, List.map_append, hmapi, List.length_append,
      List.length_singleton, List.range'_1_concat, List.map_singleton]
    show _ ++ [(newChunk heading hl document_id client_id st tc).chunk_index]
        = _
    rw [show (newChunk heading hl document_id client_id st tc).chunk_index
        = st.idx from rfl, hidx]
  · rw [emitChunk_chunks, List.map_append, hmapid, List.length_append,
      List.length_singleton, List.range'_1_concat, List.map_append,
      List.map_singleton, List.map_singleton]
    show _ ++ [(newChunk heading hl document_id client_id st tc).chunk_id] = _
    rw [show (newChunk heading hl document_id client_id st tc).chunk_id
        = chunkId document_id st.idx from rfl, hidx]
  · rw [emitChunk_chunks]
    intro ch hch
    rcases List.mem_append.1 hch with hold | hnew
    · exact hall ch hold
    · rw [List.mem_singleton] at hnew
      subst hnew
      exact ⟨rfl, rfl, rfl, rfl, hcur, pyStrip_idem _⟩

theorem stChunksGood_of_update {base : Nat} {document_id client_id : List Char}
    {heading : Option (List Char)} {hl : Nat} {st1 st2 : SplitState}
    (hchunks : st2.chunks = st1.chunks) (hidx : st2.idx = st1.idx)
    (h : StChunksGood base document_id client_id heading hl st1) :
    StChunksGood base document_id client_id heading hl st2 := by
  obtain ⟨a, b, e, f⟩ := h
  exact ⟨by rw [hchunks, hidx]; exact a, by rw [hchunks]; exact b,
    by rw [hchunks]; exact e, by rw [hchunks]; exact f⟩

theorem sentenceStep_good {C : SemanticChunker} {base hl : Nat}
    {document_id client_id : List Char} {heading : Option (List Char)}
    {st : SplitState} (s0 : List Char)
    (h : StChunksGood base document_id client_id heading hl st)
    (hc : CurOK st) :
    StChunksGood base document_id client_id heading hl
      (sentenceStep C heading hl document_id client_id st s0) ∧
    CurOK (sentenceStep C heading hl document_id client_id st s0) := by
  unfold sentenceStep
  dsimp only
  split_ifs with h0 h1 h2
  · exact ⟨h, hc⟩
  · -- budget exceeded, non-empty buffer: flush then restart from sentence
    have hcur : pyStrip st.cur_text ≠ [] := by
      rcases hc with he | hn
      · exact absurd he h2
      · exact hn
    refine ⟨stChunksGood_of_update rfl rfl
      (emitChunk_good h hcur st.cur_tokens), Or.inr ?_⟩
    obtain ⟨ch0, hch0, hw0⟩ := exists_nonws_of_stripped_ne_nil h0
    exact pyStrip_ne_nil_of_mem (List.mem_append_left _ hch0) hw0
  · -- budget exceeded, empty buffer: restart from sentence
    refine ⟨stChunksGood_of_update rfl rfl h, Or.inr ?_⟩
    obtain ⟨ch0, hch0, hw0⟩ := exists_nonws_of_stripped_ne_nil h0
    exact pyStrip_ne_nil_of_mem (List.mem_append_left _ hch0) hw0
  · -- sentence fits: append
    refine ⟨stChunksGood_of_update rfl rfl h, Or.inr ?_⟩
    obtain ⟨ch0, hch0, hw0⟩ := exists_nonws_of_stripped_ne_nil h0
    exact pyStrip_ne_nil_of_mem
      (List.mem_append_left _ (List.mem_append_right _ hch0)) hw0

theorem foldl_sentenceStep_good {C : SemanticChunker} {base hl : Nat}
    {document_id client_id : List Char} {heading : Option (List Char)} :
    ∀ (l : List (List Char)) (st : SplitState),
    StChunksGood base document_id client_id heading hl st → CurOK st →
    StChunksGood base document_id client_id heading hl
      (l.foldl (sentenceStep C heading hl document_id client_id) st) ∧
    CurOK (l.foldl (sentenceStep C heading hl document_id client_id) st) := by
  intro l
  induction l with
  | nil => intro st h hc; exact ⟨h, hc⟩
  | cons s0 rest ih =>
    intro st h hc
    obtain ⟨h1, h2⟩ := sentenceStep_good (C := C) s0 h hc
    exact ih _ h1 h2

theorem paragraphStep_good {C : SemanticChunker} {base hl : Nat}
    {document_id client_id : List Char} {heading : Option (List Char)}
    {st : SplitState} (p0 : List Char)
    (h : StChunksGood base document_id client_id heading hl st)
    (hc : CurOK st) :
    StChunksGood base document_id client_id heading hl
      (paragraphStep C heading hl document_id client_id st p0) ∧
    CurOK (paragraphStep C heading hl document_id client_id st p0) := by
  unfold paragraphStep
  dsimp only
  split_ifs with h0 h1 h2 h3 h4
  · exact ⟨h, hc⟩
  · -- oversized paragraph, non-empty buffer: flush, reset, sentence loop
    have hcur : pyStrip st.cur_text ≠ [] := by
      rcases hc with he | hn
      · exact absurd he h2
      · exact hn
    exact foldl_sentenceStep_good _ _
      (stChunksGood_of_update rfl rfl (emitChunk_good h hcur st.cur_tokens))
      (Or.inl rfl)
  · -- oversized paragraph, empty buffer
    exact foldl_sentenceStep_good _ _ h hc
  · -- fitting paragraph that overflows a non-empty buffer
    have hcur : pyStrip st.cur_text ≠ [] := by
      rcases hc with he | hn
      · exact absurd he h4
      · exact hn
    refine ⟨stChunksGood_of_update rfl rfl
      (emitChunk_good h hcur st.cur_tokens), Or.inr ?_⟩
    obtain ⟨ch0, hch0, hw0⟩ := exists_nonws_of_stripped_ne_nil h0
    exact pyStrip_ne_nil_of_mem
      (List.mem_append_left _ (List.mem_append_right _ hch0)) hw0
  · -- fitting paragraph that overflows an empty buffer
    refine ⟨stChunksGood_of_update rfl rfl h, Or.inr ?_⟩
    obtain ⟨ch0, hch0, hw0⟩ := exists_nonws_of_stripped_ne_nil h0
    exact pyStrip_ne_nil_of_mem
      (List.mem_append_left _ (List.mem_append_right _ hch0)) hw0
  · -- fitting paragraph appended to the buffer
    refine ⟨stChunksGood_of_update rfl rfl h, Or.inr ?_⟩
    obtain ⟨ch0, hch0, hw0⟩ := exists_nonws_of_stripped_ne_nil h0
    exact pyStrip_ne_nil_of_mem
      (List.mem_append_left _ (List.mem_append_right _ hch0)) hw0

theorem foldl_paragraphStep_good (C : SemanticChunker) (base hl : Nat)
    (document_id client_id : List Char) (heading : Option (List Char)) :
    ∀ (l : List (List Char)) (st : SplitState),
    StChunksGood base document_id client_id heading hl st → CurOK st →
    StChunksGood base document_id client_id heading hl
      (l.foldl (paragraphStep C heading hl document_id client_id) st) ∧
    CurOK (l.foldl (paragraphStep C heading hl document_id client_id) st) := by
  intro l
  induction l with
  | nil => intro st h hc; exact ⟨h, hc⟩
  | cons p0 rest ih =>
    intro st h hc
    obtain ⟨h1, h2⟩ := paragraphStep_good (C := C) p0 h hc
    exact ih _ h1 h2

theorem split_section_into_chunks_good (C : SemanticChunker)
    (sec : MDSection) (document_id client_id : List Char) (i : Nat) :
    (split_section_into_chunks C sec document_id client_id i).2 =
      i + (split_section_into_chunks C sec document_id client_id i).1.length ∧
    (split_section_into_chunks C sec document_id client_id i).1.map
        Chunk.chunk_index =
      List.range' i
        (split_section_into_chunks C sec document_id client_id i).1.length ∧
    (split_section_into_chunks C sec document_id client_id i).1.map
        Chunk.chunk_id =
      (List.range' i
        (split_section_into_chunks C sec document_id client_id i).1.length).map
        (chunkId document_id) ∧
    ∀ ch ∈ (split_section_into_chunks C sec document_id client_id i).1,
      ChunkGood document_id client_id sec.heading sec.heading_level ch := by
  unfold split_section_into_chunks
  dsimp only
  split_ifs with hfull hsize hfin
  · exact ⟨(Nat.add_zero i).symm, rfl, rfl, by intro ch hch; cases hch⟩
  · refine ⟨rfl, rfl, rfl, ?_⟩
    intro ch hch
    rw [List.mem_singleton] at hch
    subst hch
    exact ⟨rfl, rfl, rfl, rfl, hfull, pyStrip_idem _⟩
  · have hinit : StChunksGood i document_id client_id sec.heading
        sec.heading_level ⟨[], [], 0, i⟩ :=
      ⟨(Nat.add_zero i).symm, rfl, rfl, by intro ch hch; cases hch⟩
    obtain ⟨hst, hcur⟩ := foldl_paragraphStep_good C i sec.heading_level
      document_id client_id sec.heading
      (reSplitBlank (sectionFullText sec)) ⟨[], [], 0, i⟩ hinit (Or.inl rfl)
    obtain ⟨g1, g2, g3, g4⟩ := emitChunk_good hst hfin
      (C.countTokens ((reSplitBlank (sectionFullText sec)).foldl
        (paragraphStep C sec.heading sec.heading_level document_id
          client_id) ⟨[], [], 0, i⟩).cur_text)
    exact ⟨g1, g2, g3, g4⟩
  · have hinit : StChunksGood i document_id client_id sec.heading
        sec.heading_level ⟨[], [], 0, i⟩ :=
      ⟨(Nat.add_zero i).symm, rfl, rfl, by intro ch hch; cases hch⟩
    obtain ⟨hst, hcur⟩ := foldl_paragraphStep_good C i sec.heading_level
      document_id client_id sec.heading
      (reSplitBlank (sectionFullText sec)) ⟨[], [], 0, i⟩ hinit (Or.inl rfl)
    obtain ⟨g1, g2, g3, g4⟩ := hst
    exact ⟨g1, g2, g3, g4⟩

theorem sections_foldl_good (C : SemanticChunker)
    (document_id client_id : List Char) :
    ∀ (secs : List MDSection) (acc : List Chunk × Nat),
    acc.2 = acc.1.length →
    acc.1.map Chunk.chunk_index = List.range' 0 acc.1.length →
    acc.1.map Chunk.chunk_id =
      (List.range' 0 acc.1.length).map (chunkId document_id) →
    (∀ ch ∈ acc.1, ch.document_id = document_id ∧
      ch.client_id = client_id ∧ ch.text ≠ [] ∧ pyStrip ch.text = ch.text) →
    (secs.foldl (fun acc sec =>
        let r := split_section_into_chunks C sec document_id client_id acc.2
        (acc.1 ++ r.1, r.2)) acc).2 =
      (secs.foldl (fun acc sec =>
        let r := split_section_into_chunks C sec document_id client_id acc.2
        (acc.1 ++ r.1, r.2)) acc).1.length ∧
    (secs.foldl (fun acc sec =>
        let r := split_section_into_chunks C sec document_id client_id acc.2
        (acc.1 ++ r.1, r.2)) acc).1.map Chunk.chunk_index =
      List.range' 0 (secs.foldl (fun acc sec =>
        let r := split_section_into_chunks C sec document_id client_id acc.2
        (acc.1 ++ r.1, r.2)) acc).1.length ∧
    (secs.foldl (fun acc sec =>
        let r := split_section_into_chunks C sec document_id client_id acc.2
        (acc.1 ++ r.1, r.2)) acc).1.map Chunk.chunk_id =
      (List.range' 0 (secs.foldl (fun acc sec =>
        let r := split_section_into_chunks C sec document_id client_id acc.2
        (acc.1 ++ r.1, r.2)) acc).1.length).map (chunkId document_id) ∧
    ∀ ch ∈ (secs.foldl (fun acc sec =>
        let r := split_section_into_chunks C sec document_id client_id acc.2
        (acc.1 ++ r.1, r.2)) acc).1,
      ch.document_id = document_id ∧ ch.client_id = client_id ∧
      ch.text ≠ [] ∧ pyStrip ch.text = ch.text := by
  intro secs
  induction secs with
  | nil =>
    intro acc h1 h2 h3 h4
    exact ⟨h1, h2, h3, h4⟩
  | cons sec rest ih =>
    intro acc h1 h2 h3 h4
    obtain ⟨g1, g2, g3, g4⟩ :=
      split_section_into_chunks_good C sec document_id client_id acc.2
    have hacc : acc.2 = 0 + acc.1.length := by omega
    apply ih ((acc.1 ++
      (split_section_into_chunks C sec document_id client_id acc.2).1,
      (split_section_into_chunks C sec document_id client_id acc.2).2))
    · show (split_section_into_chunks C sec document_id client_id acc.2).2
        = (acc.1 ++
          (split_section_into_chunks C sec document_id client_id acc.2).1).length
      rw [g1, List.length_append, h1]
    · show (acc.1 ++
          (split_section_into_chunks C sec document_id client_id acc.2).1).map
          Chunk.chunk_index = _
      rw [List.map_append, h2, g2, List.length_append]
      rw [hacc, List.range'_append_1 0 acc.1.length _]
      congr 1
      omega
    · show (acc.1 ++
          (split_section_into_chunks C sec document_id client_id acc.2).1).map
          Chunk.chunk_id = _
      rw [List.map_append, h3, g3, List.length_append]
      rw [hacc, ← List.map_append, List.range'_append_1 0 acc.1.length _]
      congr 2
      omega
    · intro ch hch
      rcases List.mem_append.1 hch with hold | hnew
      · exact h4 ch hold
      · obtain ⟨e1, e2, _, _, e5, e6⟩ := g4 ch hnew
        exact ⟨e1, e2, e5, e6⟩

/-- C10: every chunk `chunk_document` emits, for any text, identifiers
and configuration, carries the given `document_id` and `client_id` and a
non-empty text with no leading or trailing whitespace. -/
theorem chunk_document_chunks_wellformed (C : SemanticChunker)
    (text document_id client_id : List Char) :
    ∀ ch ∈ chunk_document C text document_id client_id,
      ch.document_id = document_id ∧ ch.client_id = client_id ∧
      ch.text ≠ [] ∧ pyStrip ch.text = ch.text := by
  unfold chunk_document
  split_ifs with h
  · intro ch hch; cases hch
  · dsimp only
    exact (sections_foldl_good C document_id client_id _ ([], 0) rfl rfl rfl
      (by intro ch hch; cases hch)).2.2.2

/-- The single chunk `chunk_document` produces for the document `"hi"`
with the fallback token counter and default configuration. -/
def exampleChunk : Chunk :=
  ⟨str "c_d_0", str "d", str "c", 0, str "hi", none, 0, str "general", 0⟩

/-- Witness for `chunk_document_chunks_wellformed` at the document
`"hi"`, whose single chunk is `exampleChunk`. -/
theorem chunk_document_chunks_wellformed_witness :
    exampleChunk.document_id = str "d" ∧ exampleChunk.client_id = str "c" ∧
    exampleChunk.text ≠ [] ∧ pyStrip exampleChunk.text = exampleChunk.text :=
  chunk_document_chunks_wellformed ⟨500, 50, fallback_count⟩ (str "hi")
    (str "d") (str "c") exampleChunk (by decide)

/-! ### Claim: documents without headings -/

theorem parseLinesAux_nomatch :
    ∀ (lines : List (List Char)) (i : Nat) (st : ParseState),
    (∀ l ∈ lines, headingMatch l = none) →
    parseLinesAux i st lines =
      { st with content_lines := st.content_lines ++ lines } := by
  intro lines
  induction lines with
  | nil =>
    intro i st _
    show st = { st with content_lines := st.content_lines ++ [] }
    rw [List.append_nil]
  | cons line rest ih =>
    intro i st h
    show parseLinesAux (i + 1) (parseStep st i line) rest = _
    have hstep : parseStep st i line =
        { st with content_lines := st.content_lines ++ [line] } := by
      unfold parseStep
      rw [h line (List.mem_cons_self _ _)]
    rw [hstep, ih (i + 1) _ (fun l hl => h l (List.mem_cons_of_mem _ hl))]
    simp

/-- C6 (amended): for a text in which no line matches the heading
pattern, `parse_headings` returns exactly one section with no heading,
level 0 and the trimmed full document as content (trimmed — not the
verbatim document, see the counterexample), and every chunk
`chunk_document` produces carries `heading = none` and
`heading_level = 0`. -/
theorem chunk_document_no_headings (C : SemanticChunker)
    (text document_id client_id : List Char)
    (h : ∀ line ∈ splitNL text, headingMatch line = none) :
    parse_headings text =
      [{ heading := none, heading_level := 0, content := pyStrip text,
         start_line := 0 }] ∧
    ∀ ch ∈ chunk_document C text document_id client_id,
      ch.heading = none ∧ ch.heading_level = 0 := by
  have hparse : parse_headings text =
      [{ heading := none, heading_level := 0, content := pyStrip text,
         start_line := 0 }] := by
    unfold parse_headings
    dsimp only
    rw [parseLinesAux_nomatch (splitNL text) 0 _ h]
    rw [if_pos (Or.inl (by
      rw [List.nil_append]
      exact splitOnChar_ne_nil '\n' text))]
    rw [List.nil_append, List.nil_append, joinNL_splitNL]
  refine ⟨hparse, ?_⟩
  unfold chunk_document
  split_ifs with hempty
  · intro ch hch; cases hch
  · dsimp only
    rw [hparse]
    rw [if_neg (by simp)]
    intro ch hch
    have hch2 : ch ∈ (split_section_into_chunks C
        { heading := none, heading_level := 0, content := pyStrip text,
          start_line := 0 } document_id client_id 0).1 := by
      have : ([(⟨none, 0, pyStrip text, 0⟩ : MDSection)].foldl (fun acc sec =>
          let r := split_section_into_chunks C sec document_id client_id acc.2
          (acc.1 ++ r.1, r.2)) (([], 0) : List Chunk × Nat)).1 =
          [] ++ (split_section_into_chunks C ⟨none, 0, pyStrip text, 0⟩
            document_id client_id 0).1 := rfl
      rw [this, List.nil_append] at hch
      exact hch
    obtain ⟨_, _, e3, e4, _, _⟩ := (split_section_into_chunks_good C
      ⟨none, 0, pyStrip text, 0⟩ document_id client_id 0).2.2.2 ch hch2
    exact ⟨e3, e4⟩

/-- Witness for `chunk_document_no_headings` at the heading-free document
`"a b"`. -/
theorem chunk_document_no_headings_witness :
    parse_headings (str "a b") =
      [{ heading := none, heading_level := 0, content := pyStrip (str "a b"),
         start_line := 0 }] :=
  (chunk_document_no_headings ⟨500, 50, fallback_count⟩ (str "a b")
    (str "d") (str "c") (by decide)).1

/-- C6 counterexample: for the heading-free document `" a"` the single
section's content is the trimmed text `"a"`, not the entire document
`" a"` as the claim states. -/
theorem parse_headings_content_trimmed_counterexample :
    parse_headings (str " a") =
      [{ heading := none, heading_level := 0, content := str "a",
         start_line := 0 }] ∧
    str "a" ≠ str " a" := by
  refine ⟨by decide, by decide⟩


/-! ### Non-emptiness machinery for the splitter -/

/-- A character taken from within the leading whitespace run is
whitespace. -/
theorem ws_of_mem_take_le {rest : List Char} {n : Nat}
    (hn : n ≤ (rest.takeWhile pyIsSpace).length) {x : Char}
    (hx : x ∈ rest.take n) : pyIsSpace x := by
  have h1 : rest.takeWhile pyIsSpace =
      rest.take (rest.takeWhile pyIsSpace).length :=
    List.prefix_iff_eq_take.1 (List.takeWhile_prefix _)
  have h2 : rest.take n = (rest.takeWhile pyIsSpace).take n := by
    rw [h1, List.take_take, Nat.min_eq_left hn]
  rw [h2] at hx
  exact List.mem_takeWhile_imp (List.mem_of_mem_take hx)

theorem reSplitBlankAux_nil (fuel : Nat) (cur : List Char) :
    reSplitBlankAux fuel cur [] = [cur.reverse] := by
  cases fuel <;> rfl

theorem reSplitBlankAux_zero (cur : List Char) (c : Char)
    (rest : List Char) :
    reSplitBlankAux 0 cur (c :: rest) = [cur.reverse] := rfl

theorem reSplitBlankAux_cont (fuel : Nat) (cur rest : List Char)
    (h : ((rest.takeWhile pyIsSpace).reverse.dropWhile
      (fun d => ¬ d = '\n')).reverse = []) :
    reSplitBlankAux (fuel + 1) cur ('\n' :: rest) =
      reSplitBlankAux fuel ('\n' :: cur) rest := by
  rw [reSplitBlankAux.eq_def]
  dsimp only
  rw [if_pos rfl]
  rw [if_pos h]

theorem reSplitBlankAux_sep (fuel : Nat) (cur rest : List Char)
    (h : ((rest.takeWhile pyIsSpace).reverse.dropWhile
      (fun d => ¬ d = '\n')).reverse ≠ []) :
    reSplitBlankAux (fuel + 1) cur ('\n' :: rest) =
      cur.reverse :: reSplitBlankAux fuel []
        (rest.drop ((rest.takeWhile pyIsSpace).reverse.dropWhile
          (fun d => ¬ d = '\n')).reverse.length) := by
  rw [reSplitBlankAux.eq_def]
  dsimp only
  rw [if_pos rfl]
  rw [if_neg h]

theorem reSplitBlankAux_nonsep (fuel : Nat) (cur : List Char) (c : Char)
    (rest : List Char) (h : ¬ c = '\n') :
    reSplitBlankAux (fuel + 1) cur (c :: rest) =
      reSplitBlankAux fuel (c :: cur) rest := by
  rw [reSplitBlankAux.eq_def]
  dsimp only
  rw [if_neg h]

/-- Every non-whitespace character of the input lands in some piece of
the blank-line split, provided the fuel covers the input length. -/
theorem reSplitBlankAux_sound :
    ∀ (fuel : Nat) (cur l : List Char), l.length ≤ fuel →
    ((∃ c ∈ l, ¬ pyIsSpace c) ∨ (∃ c ∈ cur, ¬ pyIsSpace c)) →
    ∃ p ∈ reSplitBlankAux fuel cur l, ∃ c ∈ p, ¬ pyIsSpace c := by
  intro fuel
  induction fuel with
  | zero =>
    intro cur l hlen h
    have hl : l = [] := List.eq_nil_of_length_eq_zero
      (Nat.le_antisymm hlen (Nat.zero_le _))
    subst hl
    rcases h with ⟨c, hc, _⟩ | ⟨c, hc, hw⟩
    · cases hc
    · refine ⟨cur.reverse, ?_, c, List.mem_reverse.2 hc, hw⟩
      rw [reSplitBlankAux_nil]
      exact List.mem_singleton_self _
  | succ f ih =>
    intro cur l hlen h
    cases l with
    | nil =>
      rcases h with ⟨c, hc, _⟩ | ⟨c, hc, hw⟩
      · cases hc
      · refine ⟨cur.reverse, ?_, c, List.mem_reverse.2 hc, hw⟩
        rw [reSplitBlankAux_nil]
        exact List.mem_singleton_self _
    | cons c0 rest =>
      have hrest : rest.length ≤ f := by
        rw [List.length_cons] at hlen
        omega
      by_cases hc0 : c0 = '\n'
      · subst hc0
        by_cases hrun2 : ((rest.takeWhile pyIsSpace).reverse.dropWhile
            (fun d => ¬ d = '\n')).reverse = []
        · rw [reSplitBlankAux_cont f cur rest hrun2]
          apply ih _ _ hrest
          rcases h with ⟨c, hc, hw⟩ | ⟨c, hc, hw⟩
          · rcases List.mem_cons.1 hc with rfl | hc2
            · exact absurd (show pyIsSpace '\n' = true by decide) hw
            · exact Or.inl ⟨c, hc2, hw⟩
          · exact Or.inr ⟨c, List.mem_cons_of_mem _ hc, hw⟩
        · rw [reSplitBlankAux_sep f cur rest hrun2]
          rcases h with ⟨c, hc, hw⟩ | ⟨c, hc, hw⟩
          · rcases List.mem_cons.1 hc with rfl | hc2
            · exact absurd (show pyIsSpace '\n' = true by decide) hw
            · have hlenrun : (((rest.takeWhile pyIsSpace).reverse.dropWhile
                  (fun d => ¬ d = '\n')).reverse).length ≤
                  (rest.takeWhile pyIsSpace).length := by
                rw [List.length_reverse]
                calc ((rest.takeWhile pyIsSpace).reverse.dropWhile
                      (fun d => ¬ d = '\n')).length
                    ≤ (rest.takeWhile pyIsSpace).reverse.length :=
                      (List.dropWhile_sublist _).length_le
                  _ = (rest.takeWhile pyIsSpace).length := List.length_reverse _
              have hcsplit : c ∈ rest.take
                  (((rest.takeWhile pyIsSpace).reverse.dropWhile
                    (fun d => ¬ d = '\n')).reverse).length ∨
                  c ∈ rest.drop (((rest.takeWhile pyIsSpace).reverse.dropWhile
                    (fun d => ¬ d = '\n')).reverse).length := by
                rw [← List.mem_append, List.take_append_drop]
                exact hc2
              rcases hcsplit with hin | hin
              · exact absurd (ws_of_mem_take_le hlenrun hin) hw
              · have hdrop : (rest.drop
                    (((rest.takeWhile pyIsSpace).reverse.dropWhile
                      (fun d => ¬ d = '\n')).reverse).length).length ≤ f := by
                  rw [List.length_drop]
                  omega
                obtain ⟨p, hp, hcp⟩ := ih _ _ hdrop (Or.inl ⟨c, hin, hw⟩)
                exact ⟨p, List.mem_cons_of_mem _ hp, hcp⟩
          · exact ⟨cur.reverse, List.mem_cons_self _ _,
              c, List.mem_reverse.2 hc, hw⟩
      · rw [reSplitBlankAux_nonsep f cur c0 rest hc0]
        apply ih _ _ hrest
        rcases h with ⟨c, hc, hw⟩ | ⟨c, hc, hw⟩
        · rcases List.mem_cons.1 hc with rfl | hc2
          · exact Or.inr ⟨c, List.mem_cons_self _ _, hw⟩
          · exact Or.inl ⟨c, hc2, hw⟩
        · exact Or.inr ⟨c, List.mem_cons_of_mem _ hc, hw⟩

/-- A stripped-non-empty text has a piece of its blank-line split that
strips non-empty. -/
theorem reSplitBlank_exists_piece {s : List Char} (h : pyStrip s ≠ []) :
    ∃ p ∈ reSplitBlank s, pyStrip p ≠ [] := by
  obtain ⟨c, hc, hw⟩ := exists_nonws_of_pyStrip_ne_nil h
  obtain ⟨p, hp, c2, hc2, hw2⟩ :=
    reSplitBlankAux_sound s.length [] s (Nat.le_refl _) (Or.inl ⟨c, hc, hw⟩)
  exact ⟨p, hp, pyStrip_ne_nil_of_mem hc2 hw2⟩

theorem reSplitSentAux_nil (fuel : Nat) (prev : Char) (cur : List Char) :
    reSplitSentAux fuel prev cur [] = [cur.reverse] := by
  cases fuel <;> rfl

theorem reSplitSentAux_zero (prev : Char) (cur : List Char) (c : Char)
    (rest : List Char) :
    reSplitSentAux 0 prev cur (c :: rest) = [cur.reverse] := rfl

theorem reSplitSentAux_sep (fuel : Nat) (prev : Char) (cur : List Char)
    (c : Char) (rest : List Char)
    (h : (prev = '.' ∨ prev = '!' ∨ prev = '?') ∧ pyIsSpace c) :
    reSplitSentAux (fuel + 1) prev cur (c :: rest) =
      cur.reverse :: reSplitSentAux fuel
        ((rest.takeWhile pyIsSpace).getLastD c)
        [] (rest.drop (rest.takeWhile pyIsSpace).length) := by
  rw [reSplitSentAux.eq_def]
  dsimp only
  rw [if_pos h]

theorem reSplitSentAux_nonsep (fuel : Nat) (prev : Char) (cur : List Char)
    (c : Char) (rest : List Char)
    (h : ¬ ((prev = '.' ∨ prev = '!' ∨ prev = '?') ∧ pyIsSpace c)) :
    reSplitSentAux (fuel + 1) prev cur (c :: rest) =
      reSplitSentAux fuel c (c :: cur) rest := by
  rw [reSplitSentAux.eq_def]
  dsimp only
  rw [if_neg h]

/-- Every non-whitespace character of the input lands in some piece of
the sentence split, provided the fuel covers the input length. -/
theorem reSplitSentAux_sound :
    ∀ (fuel : Nat) (prev : Char) (cur l : List Char), l.length ≤ fuel →
    ((∃ c ∈ l, ¬ pyIsSpace c) ∨ (∃ c ∈ cur, ¬ pyIsSpace c)) →
    ∃ p ∈ reSplitSentAux fuel prev cur l, ∃ c ∈ p, ¬ pyIsSpace c := by
  intro fuel
  induction fuel with
  | zero =>
    intro prev cur l hlen h
    have hl : l = [] := List.eq_nil_of_length_eq_zero
      (Nat.le_antisymm hlen (Nat.zero_le _))
    subst hl
    rcases h with ⟨c, hc, _⟩ | ⟨c, hc, hw⟩
    · cases hc
    · refine ⟨cur.reverse, ?_, c, List.mem_reverse.2 hc, hw⟩
      rw [reSplitSentAux_nil]
      exact List.mem_singleton_self _
  | succ f ih =>
    intro prev cur l hlen h
    cases l with
    | nil =>
      rcases h with ⟨c, hc, _⟩ | ⟨c, hc, hw⟩
      · cases hc
      · refine ⟨cur.reverse, ?_, c, List.mem_reverse.2 hc, hw⟩
        rw [reSplitSentAux_nil]
        exact List.mem_singleton_self _
    | cons c0 rest =>
      have hrest : rest.length ≤ f := by
        rw [List.length_cons] at hlen
        omega
      by_cases hsep : (prev = '.' ∨ prev = '!' ∨ prev = '?') ∧ pyIsSpace c0
      · rw [reSplitSentAux_sep f prev cur c0 rest hsep]
        rcases h with ⟨c, hc, hw⟩ | ⟨c, hc, hw⟩
        · rcases List.mem_cons.1 hc with rfl | hc2
          · exact absurd hsep.2 hw
          · have hcsplit : c ∈ rest.take (rest.takeWhile pyIsSpace).length ∨
                c ∈ rest.drop (rest.takeWhile pyIsSpace).length := by
              rw [← List.mem_append, List.take_append_drop]
              exact hc2
            rcases hcsplit with hin | hin
            · exact absurd (ws_of_mem_take_le (Nat.le_refl _) hin) hw
            · have hdrop : (rest.drop
                  (rest.takeWhile pyIsSpace).length).length ≤ f := by
                rw [List.length_drop]
                omega
              obtain ⟨p, hp, hcp⟩ := ih _ _ _ hdrop (Or.inl ⟨c, hin, hw⟩)
              exact ⟨p, List.mem_cons_of_mem _ hp, hcp⟩
        · exact ⟨cur.reverse, List.mem_cons_self _ _,
            c, List.mem_reverse.2 hc, hw⟩
      · rw [reSplitSentAux_nonsep f prev cur c0 rest hsep]
        apply ih _ _ _ hrest
        rcases h with ⟨c, hc, hw⟩ | ⟨c, hc, hw⟩
        · rcases List.mem_cons.1 hc with rfl | hc2
          · exact Or.inr ⟨c, List.mem_cons_self _ _, hw⟩
          · exact Or.inl ⟨c, hc2, hw⟩
        · exact Or.inr ⟨c, List.mem_cons_of_mem _ hc, hw⟩

/-- A stripped-non-empty paragraph has a sentence that strips
non-empty. -/
theorem reSplitSent_exists_piece {s : List Char} (h : pyStrip s ≠ []) :
    ∃ p ∈ reSplitSent s, pyStrip p ≠ [] := by
  obtain ⟨c, hc, hw⟩ := exists_nonws_of_pyStrip_ne_nil h
  obtain ⟨p, hp, c2, hc2, hw2⟩ :=
    reSplitSentAux_sound s.length ' ' [] s (Nat.le_refl _)
      (Or.inl ⟨c, hc, hw⟩)
  exact ⟨p, hp, pyStrip_ne_nil_of_mem hc2 hw2⟩

/-- The splitter state has already made visible progress: a chunk was
emitted or the buffer strips non-empty. -/
def Progress (st : SplitState) : Prop :=
  st.chunks ≠ [] ∨ pyStrip st.cur_text ≠ []

theorem sentenceStep_progress_est (C : SemanticChunker)
    (heading : Option (List Char)) (hl : Nat)
    (document_id client_id : List Char) (st : SplitState)
    {s0 : List Char} (h0 : pyStrip s0 ≠ []) :
    Progress (sentenceStep C heading hl document_id client_id st s0) := by
  unfold sentenceStep
  dsimp only
  split_ifs with h1 h2 h3
  · exact absurd h1 h0
  · refine Or.inr ?_
    obtain ⟨c, hc, hw⟩ := exists_nonws_of_stripped_ne_nil h0
    exact pyStrip_ne_nil_of_mem (List.mem_append_left _ hc) hw
  · refine Or.inr ?_
    obtain ⟨c, hc, hw⟩ := exists_nonws_of_stripped_ne_nil h0
    exact pyStrip_ne_nil_of_mem (List.mem_append_left _ hc) hw
  · refine Or.inr ?_
    obtain ⟨c, hc, hw⟩ := exists_nonws_of_stripped_ne_nil h0
    exact pyStrip_ne_nil_of_mem
      (List.mem_append_left _ (List.mem_append_right _ hc)) hw

theorem sentenceStep_progress_pres (C : SemanticChunker)
    (heading : Option (List Char)) (hl : Nat)
    (document_id client_id : List Char) (st : SplitState) (s0 : List Char)
    (h : Progress st) :
    Progress (sentenceStep C heading hl document_id client_id st s0) := by
  by_cases h0 : pyStrip s0 = []
  · unfold sentenceStep
    dsimp only
    rw [if_pos h0]
    exact h
  · exact sentenceStep_progress_est C heading hl document_id client_id st h0

theorem foldl_sentenceStep_progress_pres (C : SemanticChunker)
    (heading : Option (List Char)) (hl : Nat)
    (document_id client_id : List Char) :
    ∀ (l : List (List Char)) (st : SplitState), Progress st →
    Progress (l.foldl (sentenceStep C heading hl document_id client_id) st) := by
  intro l
  induction l with
  | nil => intro st h; exact h
  | cons s0 rest ih =>
    intro st h
    exact ih _ (sentenceStep_progress_pres C heading hl document_id
      client_id st s0 h)

theorem foldl_sentenceStep_progress_est (C : SemanticChunker)
    (heading : Option (List Char)) (hl : Nat)
    (document_id client_id : List Char) :
    ∀ (l : List (List Char)) (st : SplitState),
    (∃ s ∈ l, pyStrip s ≠ []) →
    Progress (l.foldl (sentenceStep C heading hl document_id client_id) st) := by
  intro l
  induction l with
  | nil => intro st h; obtain ⟨s, hs, _⟩ := h; cases hs
  | cons s0 rest ih =>
    intro st h
    obtain ⟨s, hs, hne⟩ := h
    rcases List.mem_cons.1 hs with rfl | hs2
    · exact foldl_sentenceStep_progress_pres C heading hl document_id
        client_id rest _
        (sentenceStep_progress_est C heading hl document_id client_id st hne)
    · exact ih _ ⟨s, hs2, hne⟩

theorem paragraphStep_progress_est (C : SemanticChunker)
    (heading : Option (List Char)) (hl : Nat)
    (document_id client_id : List Char) (st : SplitState)
    {p0 : List Char} (h0 : pyStrip p0 ≠ []) :
    Progress (paragraphStep C heading hl document_id client_id st p0) := by
  unfold paragraphStep
  dsimp only
  split_ifs with h1 h2 h3 h4
  · exact absurd h1 h0
  · apply foldl_sentenceStep_progress_est
    apply reSplitSent_exists_piece
    rw [pyStrip_idem]
    exact h0
  · apply foldl_sentenceStep_progress_est
    apply reSplitSent_exists_piece
    rw [pyStrip_idem]
    exact h0
  · refine Or.inr ?_
    obtain ⟨c, hc, hw⟩ := exists_nonws_of_stripped_ne_nil h0
    exact pyStrip_ne_nil_of_mem
      (List.mem_append_left _ (List.mem_append_right _ hc)) hw
  · refine Or.inr ?_
    obtain ⟨c, hc, hw⟩ := exists_nonws_of_stripped_ne_nil h0
    exact pyStrip_ne_nil_of_mem
      (List.mem_append_left _ (List.mem_append_right _ hc)) hw
  · refine Or.inr ?_
    obtain ⟨c, hc, hw⟩ := exists_nonws_of_stripped_ne_nil h0
    exact pyStrip_ne_nil_of_mem
      (List.mem_append_left _ (List.mem_append_right _ hc)) hw

theorem paragraphStep_progress_pres (C : SemanticChunker)
    (heading : Option (List Char)) (hl : Nat)
    (document_id client_id : List Char) (st : SplitState) (p0 : List Char)
    (h : Progress st) :
    Progress (paragraphStep C heading hl document_id client_id st p0) := by
  by_cases h0 : pyStrip p0 = []
  · unfold paragraphStep
    dsimp only
    rw [if_pos h0]
    exact h
  · exact paragraphStep_progress_est C heading hl document_id client_id st h0

theorem foldl_paragraphStep_progress_pres (C : SemanticChunker)
    (heading : Option (List Char)) (hl : Nat)
    (document_id client_id : List Char) :
    ∀ (l : List (List Char)) (st : SplitState), Progress st →
    Progress (l.foldl (paragraphStep C heading hl document_id client_id) st) := by
  intro l
  induction l with
  | nil => intro st h; exact h
  | cons p0 rest ih =>
    intro st h
    exact ih _ (paragraphStep_progress_pres C heading hl document_id
      client_id st p0 h)

theorem foldl_paragraphStep_progress_est (C : SemanticChunker)
    (heading : Option (List Char)) (hl : Nat)
    (document_id client_id : List Char) :
    ∀ (l : List (List Char)) (st : SplitState),
    (∃ p ∈ l, pyStrip p ≠ []) →
    Progress (l.foldl (paragraphStep C heading hl document_id client_id) st) := by
  intro l
  induction l with
  | nil => intro st h; obtain ⟨p, hp, _⟩ := h; cases hp
  | cons p0 rest ih =>
    intro st h
    obtain ⟨p, hp, hne⟩ := h
    rcases List.mem_cons.1 hp with rfl | hp2
    · exact foldl_paragraphStep_progress_pres C heading hl document_id
        client_id rest _
        (paragraphStep_progress_est C heading hl document_id client_id st hne)
    · exact ih _ ⟨p, hp2, hne⟩

theorem pyStrip_sectionFullText (sec : MDSection) :
    pyStrip (sectionFullText sec) = sectionFullText sec := by
  unfold sectionFullText
  exact pyStrip_idem _

theorem split_section_into_chunks_of_empty (C : SemanticChunker)
    (sec : MDSection) (document_id client_id : List Char) (i : Nat)
    (h : sectionFullText sec = []) :
    split_section_into_chunks C sec document_id client_id i = ([], i) := by
  unfold split_section_into_chunks
  dsimp only
  rw [if_pos h]

theorem split_section_into_chunks_nonempty (C : SemanticChunker)
    (sec : MDSection) (document_id client_id : List Char) (i : Nat)
    (h : sectionFullText sec ≠ []) :
    (split_section_into_chunks C sec document_id client_id i).1 ≠ [] := by
  unfold split_section_into_chunks
  dsimp only
  split_ifs with hfull hsize hfin
  · exact absurd hfull h
  · simp
  · rw [emitChunk_chunks]
    simp
  · have hstripfull : pyStrip (sectionFullText sec) ≠ [] := by
      rw [pyStrip_sectionFullText]
      exact h
    have hprog := foldl_paragraphStep_progress_est C sec.heading
      sec.heading_level document_id client_id
      (reSplitBlank (sectionFullText sec)) ⟨[], [], 0, i⟩
      (reSplitBlank_exists_piece hstripfull)
    rcases hprog with hchunks | hcur
    · exact hchunks
    · exact absurd hcur hfin

theorem sections_foldl_all_empty (C : SemanticChunker)
    (document_id client_id : List Char) :
    ∀ (secs : List MDSection) (acc : List Chunk × Nat),
    (∀ sec ∈ secs, sectionFullText sec = []) →
    secs.foldl (fun acc sec =>
      let r := split_section_into_chunks C sec document_id client_id acc.2
      (acc.1 ++ r.1, r.2)) acc = acc := by
  intro secs
  induction secs with
  | nil => intro acc _; rfl
  | cons sec rest ih =>
    intro acc h
    show rest.foldl _ (acc.1 ++
      (split_section_into_chunks C sec document_id client_id acc.2).1,
      (split_section_into_chunks C sec document_id client_id acc.2).2) = acc
    rw [split_section_into_chunks_of_empty C sec document_id client_id acc.2
      (h sec (List.mem_cons_self _ _))]
    rw [List.append_nil]
    exact ih acc (fun s hs => h s (List.mem_cons_of_mem _ hs))

theorem sections_foldl_mono (C : SemanticChunker)
    (document_id client_id : List Char) :
    ∀ (secs : List MDSection) (acc : List Chunk × Nat), acc.1 ≠ [] →
    (secs.foldl (fun acc sec =>
      let r := split_section_into_chunks C sec document_id client_id acc.2
      (acc.1 ++ r.1, r.2)) acc).1 ≠ [] := by
  intro secs
  induction secs with
  | nil => intro acc h; exact h
  | cons sec rest ih =>
    intro acc h
    show (rest.foldl _ (acc.1 ++
      (split_section_into_chunks C sec document_id client_id acc.2).1,
      (split_section_into_chunks C sec document_id client_id acc.2).2)).1 ≠ []
    apply ih
    show acc.1 ++ _ ≠ []
    intro h0
    exact h (List.append_eq_nil.1 h0).1

theorem sections_foldl_ex (C : SemanticChunker)
    (document_id client_id : List Char) :
    ∀ (secs : List MDSection) (acc : List Chunk × Nat),
    (∃ sec ∈ secs, sectionFullText sec ≠ []) →
    (secs.foldl (fun acc sec =>
      let r := split_section_into_chunks C sec document_id client_id acc.2
      (acc.1 ++ r.1, r.2)) acc).1 ≠ [] := by
  intro secs
  induction secs with
  | nil => intro acc h; obtain ⟨s, hs, _⟩ := h; cases hs
  | cons sec rest ih =>
    intro acc h
    obtain ⟨s, hs, hne⟩ := h
    rcases List.mem_cons.1 hs with rfl | hs2
    · show (rest.foldl _ (acc.1 ++
        (split_section_into_chunks C s document_id client_id acc.2).1,
        (split_section_into_chunks C s document_id client_id acc.2).2)).1 ≠ []
      apply sections_foldl_mono
      show acc.1 ++ _ ≠ []
      intro h0
      exact split_section_into_chunks_nonempty C s document_id client_id
        acc.2 hne (List.append_eq_nil.1 h0).2
    · exact ih _ ⟨s, hs2, hne⟩

/-! ### Claim: chunk index contiguity and non-emptiness -/

/-- C2 (amended): for every input the chunk indices of `chunk_document`
are exactly `0, 1, ..., n-1` in output order with
`chunk_id = "c_" ++ document_id ++ "_" ++ chunk_index`; and the output is
non-empty exactly when the trimmed text is non-empty and either the
heading parser returned no sections (the whole-text fallback fires) or
some parsed section synthesizes a non-empty full text.  (The claim's
unconditional non-emptiness for non-empty input fails — see the
counterexample — because a degenerate blank heading can produce a
section whose full text is empty.) -/
theorem chunk_document_contiguity (C : SemanticChunker)
    (text document_id client_id : List Char) :
    ((chunk_document C text document_id client_id).map Chunk.chunk_index =
      List.range (chunk_document C text document_id client_id).length ∧
     (chunk_document C text document_id client_id).map Chunk.chunk_id =
      (List.range
        (chunk_document C text document_id client_id).length).map
        (chunkId document_id)) ∧
    (chunk_document C text document_id client_id ≠ [] ↔
      (pyStrip text ≠ [] ∧ (parse_headings text = [] ∨
        ∃ sec ∈ parse_headings text, sectionFullText sec ≠ []))) := by
  constructor
  · rw [List.range_eq_range']
    unfold chunk_document
    split_ifs with h
    · exact ⟨rfl, rfl⟩
    · dsimp only
      obtain ⟨_, g2, g3, _⟩ := sections_foldl_good C document_id client_id
        (if parse_headings text = [] then
          [{ heading := none, heading_level := 0, content := text,
             start_line := 0 }]
         else parse_headings text) ([], 0) rfl rfl rfl
        (by intro ch hch; cases hch)
      exact ⟨g2, g3⟩
  · constructor
    · intro hne
      constructor
      · intro h0
        apply hne
        unfold chunk_document
        rw [if_pos h0]
      · by_cases hparse : parse_headings text = []
        · exact Or.inl hparse
        · refine Or.inr ?_
          by_contra hno
          push_neg at hno
          apply hne
          unfold chunk_document
          split_ifs with h0
          · rfl
          · dsimp only
            rw [if_neg hparse]
            rw [sections_foldl_all_empty C document_id client_id
              (parse_headings text) ([], 0) hno]
    · intro ⟨hstrip, hor⟩
      unfold chunk_document
      rw [if_neg hstrip]
      dsimp only
      rcases hor with hparse | ⟨sec, hsec, hfull⟩
      · rw [if_pos hparse]
        apply sections_foldl_ex
        refine ⟨(⟨none, 0, text, 0⟩ : MDSection),
          List.mem_singleton_self _, ?_⟩
        show pyStrip text ≠ []
        exact hstrip
      · rw [if_neg (List.ne_nil_of_mem hsec)]
        exact sections_foldl_ex C document_id client_id _ _ ⟨sec, hsec, hfull⟩

/-- Witness for `chunk_document_contiguity`: the document `"hi"` yields a
non-empty chunk list. -/
theorem chunk_document_contiguity_witness :
    chunk_document ⟨500, 50, fallback_count⟩ (str "hi") (str "d")
      (str "c") ≠ [] :=
  (chunk_document_contiguity ⟨500, 50, fallback_count⟩ (str "hi") (str "d")
    (str "c")).2.mpr ⟨by decide, Or.inr
      ⟨{ heading := none, heading_level := 0, content := str "hi",
         start_line := 0 }, by decide, by decide⟩⟩

/-- C2 counterexample: the input `"#  \n \n"` is non-empty (even after
trimming it is `"#"`), yet `chunk_document` returns the empty list: its
single line parses as a heading whose text strips to the empty string,
producing one section whose synthesized full text is empty. -/
theorem chunk_document_nonempty_counterexample :
    chunk_document ⟨500, 50, fallback_count⟩ (str "#  \n \n") (str "d")
      (str "c") = [] ∧
    str "#  \n \n" ≠ [] ∧ pyStrip (str "#  \n \n") = str "#" := by
  refine ⟨by decide, by decide, by decide⟩

/-! ### Token-budget analysis of the splitter -/

/-- A token counter that is additive over concatenation (the per-unit
running sums of the splitter then agree with re-counting the buffer). -/
def AdditiveCount (count : List Char → Nat) : Prop :=
  ∀ a b : List Char, count (a ++ b) = count a + count b

/-- A token counter that assigns zero to whitespace-only strings. -/
def WsZeroCount (count : List Char → Nat) : Prop :=
  ∀ s : List Char, (∀ c ∈ s, pyIsSpace c) → count s = 0

theorem WsZeroCount.nil {count : List Char → Nat}
    (hws : WsZeroCount count) : count [] = 0 :=
  hws [] (by intro c hc; cases hc)

theorem WsZeroCount.space {count : List Char → Nat}
    (hws : WsZeroCount count) : count [' '] = 0 :=
  hws [' '] (by intro c hc; rw [List.mem_singleton] at hc; subst hc; decide)

theorem WsZeroCount.blankline {count : List Char → Nat}
    (hws : WsZeroCount count) : count ['\n', '\n'] = 0 := by
  apply hws
  intro c hc
  rcases List.mem_cons.1 hc with rfl | hc2
  · decide
  · rw [List.mem_singleton] at hc2; subst hc2; decide

theorem count_joinSpace {count : List Char → Nat}
    (hadd : AdditiveCount count) (hws : WsZeroCount count) :
    ∀ ws : List (List Char), count (joinSpace ws) = (ws.map count).sum := by
  intro ws
  induction ws with
  | nil => simp [joinSpace, hws.nil]
  | cons x t ih =>
    cases t with
    | nil => simp [joinSpace]
    | cons y t2 =>
      show count (x ++ ' ' :: joinSpace (y :: t2)) = _
      rw [show ' ' :: joinSpace (y :: t2) = [' '] ++ joinSpace (y :: t2)
        from rfl]
      rw [hadd, hadd, hws.space, ih]
      simp

theorem reSplitSentAux_ne_nil :
    ∀ (fuel : Nat) (prev : Char) (cur l : List Char),
      reSplitSentAux fuel prev cur l ≠ [] := by
  intro fuel
  induction fuel with
  | zero =>
    intro prev cur l
    cases l with
    | nil => rw [reSplitSentAux_nil]; simp
    | cons c rest => rw [reSplitSentAux_zero]; simp
  | succ f ih =>
    intro prev cur l
    cases l with
    | nil => rw [reSplitSentAux_nil]; simp
    | cons c rest =>
      by_cases hsep : (prev = '.' ∨ prev = '!' ∨ prev = '?') ∧ pyIsSpace c
      · rw [reSplitSentAux_sep f prev cur c rest hsep]; simp
      · rw [reSplitSentAux_nonsep f prev cur c rest hsep]; exact ih _ _ _

theorem reSplitBlankAux_ne_nil :
    ∀ (fuel : Nat) (cur l : List Char), reSplitBlankAux fuel cur l ≠ [] := by
  intro fuel
  induction fuel with
  | zero =>
    intro cur l
    cases l with
    | nil => rw [reSplitBlankAux_nil]; simp
    | cons c rest => rw [reSplitBlankAux_zero]; simp
  | succ f ih =>
    intro cur l
    cases l with
    | nil => rw [reSplitBlankAux_nil]; simp
    | cons c rest =>
      by_cases hc : c = '\n'
      · subst hc
        by_cases hrun2 : ((rest.takeWhile pyIsSpace).reverse.dropWhile
            (fun d => ¬ d = '\n')).reverse = []
        · rw [reSplitBlankAux_cont f cur rest hrun2]; exact ih _ _
        · rw [reSplitBlankAux_sep f cur rest hrun2]; simp
      · rw [reSplitBlankAux_nonsep f cur c rest hc]; exact ih _ _

/-- A section-fit hypothesis forces a non-negative budget: the sentence
split of any paragraph is non-empty and token counts are naturals. -/
theorem chunk_size_nonneg_of_fit {C : SemanticChunker} {full : List Char}
    (hfit : ∀ p ∈ reSplitBlank full, ∀ s ∈ reSplitSent (pyStrip p),
      (C.countTokens (pyStrip s) : Int) ≤ C.chunk_size) :
    (0 : Int) ≤ C.chunk_size := by
  cases hb : reSplitBlank full with
  | nil => exact absurd hb (reSplitBlankAux_ne_nil full.length [] full)
  | cons p ps =>
    cases hs : reSplitSent (pyStrip p) with
    | nil =>
      exact absurd hs
        (reSplitSentAux_ne_nil (pyStrip p).length ' ' [] (pyStrip p))
    | cons s ss =>
      have := hfit p (by rw [hb]; exact List.mem_cons_self _ _) s
        (by rw [hs]; exact List.mem_cons_self _ _)
      have hn : (0 : Int) ≤ (C.countTokens (pyStrip s) : Int) :=
        Int.natCast_nonneg _
      omega

theorem overlap_count_le (C : SemanticChunker)
    (hadd : AdditiveCount C.countTokens) (hws : WsZeroCount C.countTokens)
    (t : List Char) :
    (C.countTokens (_get_overlap_text C t) : Int) ≤ max C.chunk_overlap 0 := by
  unfold _get_overlap_text
  split_ifs with h1
  · rw [hws.nil]
    push_cast
    exact le_max_right _ _
  · dsimp only
    obtain ⟨k, hk, hsum⟩ := collectOverlap_spec C.countTokens
      C.chunk_overlap (pySplitWs t).reverse 0 []
    rw [List.append_nil] at hk
    split_ifs with h2
    · rw [hadd, hws.space, count_joinSpace hadd hws, hk]
      rcases hsum with rfl | hs
      · simp only [List.take_zero, List.reverse_nil, List.map_nil,
          List.sum_nil, Nat.add_zero, Nat.cast_zero]
        exact le_max_right _ _
      · rw [List.map_reverse, List.sum_reverse, Nat.add_zero]
        refine le_trans ?_ (le_max_left C.chunk_overlap 0)
        omega
    · rw [hws.nil]
      push_cast
      exact le_max_right _ _

/-- The token invariant maintained by the splitter under an additive
whitespace-zero counter: the running total is the recount of the buffer
and is bounded by the budget plus the overlap, and every emitted chunk
respects the same bound. -/
def TokBound (C : SemanticChunker) (st : SplitState) : Prop :=
  (st.cur_tokens : Int) ≤ C.chunk_size + max C.chunk_overlap 0 ∧
  C.countTokens st.cur_text = st.cur_tokens ∧
  ∀ ch ∈ st.chunks, (ch.token_count : Int) ≤
    C.chunk_size + max C.chunk_overlap 0

theorem emitChunk_tokBound {C : SemanticChunker}
    {heading : Option (List Char)} {hl : Nat}
    {document_id client_id : List Char} {st : SplitState} {tc : Nat}
    (h : TokBound C st)
    (htc : (tc : Int) ≤ C.chunk_size + max C.chunk_overlap 0) :
    TokBound C (emitChunk heading hl document_id client_id st tc) := by
  obtain ⟨h1, h2, h3⟩ := h
  refine ⟨h1, h2, ?_⟩
  rw [emitChunk_chunks]
  intro ch hch
  rcases List.mem_append.1 hch with hold | hnew
  · exact h3 ch hold
  · rw [List.mem_singleton] at hnew
    subst hnew
    exact htc

theorem max_overlap_nonneg (C : SemanticChunker) :
    (0 : Int) ≤ max C.chunk_overlap 0 := le_max_right _ _

theorem sentenceStep_tokBound {C : SemanticChunker}
    {heading : Option (List Char)} {hl : Nat}
    {document_id client_id : List Char} {st : SplitState} {s0 : List Char}
    (hadd : AdditiveCount C.countTokens) (hws : WsZeroCount C.countTokens)
    (hs : (C.countTokens (pyStrip s0) : Int) ≤ C.chunk_size)
    (h : TokBound C st) :
    TokBound C (sentenceStep C heading hl document_id client_id st s0) := by
  obtain ⟨h1, h2, h3⟩ := h
  have hmax := max_overlap_nonneg C
  unfold sentenceStep
  dsimp only
  split_ifs with hempty hbudget hcur
  · exact ⟨h1, h2, h3⟩
  · refine ⟨?_, ?_, ?_⟩
    · show (C.countTokens (pyStrip s0) : Int) ≤
        C.chunk_size + max C.chunk_overlap 0
      omega
    · show C.countTokens (pyStrip s0 ++ [' ']) = C.countTokens (pyStrip s0)
      rw [hadd, hws.space]
      omega
    · exact (emitChunk_tokBound ⟨h1, h2, h3⟩ h1).2.2
  · refine ⟨?_, ?_, h3⟩
    · show (C.countTokens (pyStrip s0) : Int) ≤
        C.chunk_size + max C.chunk_overlap 0
      omega
    · show C.countTokens (pyStrip s0 ++ [' ']) = C.countTokens (pyStrip s0)
      rw [hadd, hws.space]
      omega
  · push_neg at hbudget
    refine ⟨?_, ?_, h3⟩
    · show ((st.cur_tokens + C.countTokens (pyStrip s0) : Nat) : Int) ≤
        C.chunk_size + max C.chunk_overlap 0
      push_cast
      omega
    · show C.countTokens (st.cur_text ++ pyStrip s0 ++ [' ']) =
        st.cur_tokens + C.countTokens (pyStrip s0)
      rw [hadd, hadd, hws.space, h2]
      omega

theorem foldl_sentenceStep_tokBound (C : SemanticChunker)
    (heading : Option (List Char)) (hl : Nat)
    (document_id client_id : List Char)
    (hadd : AdditiveCount C.countTokens) (hws : WsZeroCount C.countTokens) :
    ∀ (l : List (List Char)) (st : SplitState),
    (∀ s ∈ l, (C.countTokens (pyStrip s) : Int) ≤ C.chunk_size) →
    TokBound C st →
    TokBound C (l.foldl (sentenceStep C heading hl document_id client_id) st) := by
  intro l
  induction l with
  | nil => intro st _ h; exact h
  | cons s0 rest ih =>
    intro st hfit h
    exact ih _ (fun s hs => hfit s (List.mem_cons_of_mem _ hs))
      (sentenceStep_tokBound hadd hws
        (hfit s0 (List.mem_cons_self _ _)) h)

theorem paragraphStep_tokBound {C : SemanticChunker}
    {heading : Option (List Char)} {hl : Nat}
    {document_id client_id : List Char} {st : SplitState} {p0 : List Char}
    (hadd : AdditiveCount C.countTokens) (hws : WsZeroCount C.countTokens)
    (hp : ∀ s ∈ reSplitSent (pyStrip p0),
      (C.countTokens (pyStrip s) : Int) ≤ C.chunk_size)
    (h : TokBound C st) :
    TokBound C (paragraphStep C heading hl document_id client_id st p0) := by
  obtain ⟨h1, h2, h3⟩ := h
  have hmax := max_overlap_nonneg C
  unfold paragraphStep
  dsimp only
  split_ifs with hempty hover hcur hfit2 hcur2
  · exact ⟨h1, h2, h3⟩
  · -- oversized paragraph, non-empty buffer: flush, reset, sentence loop
    apply foldl_sentenceStep_tokBound C heading hl document_id client_id
      hadd hws _ _ hp
    refine ⟨?_, ?_, ?_⟩
    · show ((0 : Nat) : Int) ≤ C.chunk_size + max C.chunk_overlap 0
      push_cast
      omega
    · show C.countTokens [] = 0
      exact hws.nil
    · exact (emitChunk_tokBound ⟨h1, h2, h3⟩ h1).2.2
  · -- oversized paragraph, empty buffer
    exact foldl_sentenceStep_tokBound C heading hl document_id client_id
      hadd hws _ _ hp ⟨h1, h2, h3⟩
  · -- overflow flush with overlap reseed, non-empty buffer
    push_neg at hempty hover
    refine ⟨?_, rfl, (emitChunk_tokBound ⟨h1, h2, h3⟩ h1).2.2⟩
    show (C.countTokens (_get_overlap_text C st.cur_text ++ pyStrip p0 ++
      ['\n', '\n']) : Int) ≤ C.chunk_size + max C.chunk_overlap 0
    rw [hadd, hadd, hws.blankline]
    have hov := overlap_count_le C hadd hws st.cur_text
    push_cast
    omega
  · -- overflow flush with overlap reseed, empty buffer
    push_neg at hempty hover
    refine ⟨?_, rfl, h3⟩
    show (C.countTokens (_get_overlap_text C st.cur_text ++ pyStrip p0 ++
      ['\n', '\n']) : Int) ≤ C.chunk_size + max C.chunk_overlap 0
    rw [hadd, hadd, hws.blankline]
    have hov := overlap_count_le C hadd hws st.cur_text
    push_cast
    omega
  · -- paragraph appended to the buffer
    push_neg at hfit2
    refine ⟨?_, ?_, h3⟩
    · show ((st.cur_tokens + C.countTokens (pyStrip p0) : Nat) : Int) ≤
        C.chunk_size + max C.chunk_overlap 0
      push_cast
      omega
    · show C.countTokens (st.cur_text ++ pyStrip p0 ++ ['\n', '\n']) =
        st.cur_tokens + C.countTokens (pyStrip p0)
      rw [hadd, hadd, hws.blankline, h2]
      omega

theorem foldl_paragraphStep_tokBound (C : SemanticChunker)
    (heading : Option (List Char)) (hl : Nat)
    (document_id client_id : List Char)
    (hadd : AdditiveCount C.countTokens) (hws : WsZeroCount C.countTokens) :
    ∀ (l : List (List Char)) (st : SplitState),
    (∀ p ∈ l, ∀ s ∈ reSplitSent (pyStrip p),
      (C.countTokens (pyStrip s) : Int) ≤ C.chunk_size) →
    TokBound C st →
    TokBound C (l.foldl (paragraphStep C heading hl document_id client_id) st) := by
  intro l
  induction l with
  | nil => intro st _ h; exact h
  | cons p0 rest ih =>
    intro st hfit h
    exact ih _ (fun p hp => hfit p (List.mem_cons_of_mem _ hp))
      (paragraphStep_tokBound hadd hws
        (hfit p0 (List.mem_cons_self _ _)) h)

/-- C1 (amended): under a token counter that is additive over
concatenation and zero on whitespace, and when every individual sentence
of the section fits the budget, every chunk `split_section_into_chunks`
emits has `token_count ≤ chunk_size + max chunk_overlap 0`.  The
unqualified bound `token_count ≤ chunk_size` of the claim is false — see
the counterexample — because blank-line separators are not counted
during paragraph accumulation while the final flush re-counts the raw
buffer, and an overlap-seeded buffer re-counts the overlap prefix on top
of a paragraph that may already reach the budget. -/
theorem split_section_token_bound (C : SemanticChunker) (sec : MDSection)
    (document_id client_id : List Char) (i : Nat)
    (hadd : AdditiveCount C.countTokens) (hws : WsZeroCount C.countTokens)
    (hfit : ∀ p ∈ reSplitBlank (sectionFullText sec),
      ∀ s ∈ reSplitSent (pyStrip p),
      (C.countTokens (pyStrip s) : Int) ≤ C.chunk_size) :
    ∀ ch ∈ (split_section_into_chunks C sec document_id client_id i).1,
      (ch.token_count : Int) ≤ C.chunk_size + max C.chunk_overlap 0 := by
  have hmax := max_overlap_nonneg C
  have hB := chunk_size_nonneg_of_fit hfit
  unfold split_section_into_chunks
  dsimp only
  split_ifs with hfull hsize hfin
  · intro ch hch; cases hch
  · intro ch hch
    rw [List.mem_singleton] at hch
    subst hch
    show (C.countTokens (sectionFullText sec) : Int) ≤ _
    omega
  · have htok := foldl_paragraphStep_tokBound C sec.heading
      sec.heading_level document_id client_id hadd hws
      (reSplitBlank (sectionFullText sec)) ⟨[], [], 0, i⟩ hfit
      (by
        refine ⟨?_, hws.nil, by intro ch hch; cases hch⟩
        show ((0 : Nat) : Int) ≤ _
        push_cast
        omega)
    have htc : ((C.countTokens ((reSplitBlank (sectionFullText sec)).foldl
        (paragraphStep C sec.heading sec.heading_level document_id
          client_id) ⟨[], [], 0, i⟩).cur_text : Nat) : Int) ≤
        C.chunk_size + max C.chunk_overlap 0 := by
      rw [htok.2.1]
      exact htok.1
    exact (emitChunk_tokBound htok htc).2.2
  · have htok := foldl_paragraphStep_tokBound C sec.heading
      sec.heading_level document_id client_id hadd hws
      (reSplitBlank (sectionFullText sec)) ⟨[], [], 0, i⟩ hfit
      (by
        refine ⟨?_, hws.nil, by intro ch hch; cases hch⟩
        show ((0 : Nat) : Int) ≤ _
        push_cast
        omega)
    exact htok.2.2

/-- A concrete additive whitespace-zero token counter: the number of
non-whitespace characters. -/
def nonws_count (s : List Char) : Nat :=
  (s.filter (fun c => ¬ pyIsSpace c)).length

theorem nonws_count_additive : AdditiveCount nonws_count := by
  intro a b
  unfold nonws_count
  rw [List.filter_append, List.length_append]

theorem nonws_count_wszero : WsZeroCount nonws_count := by
  intro s h
  unfold nonws_count
  rw [List.length_eq_zero, List.filter_eq_nil_iff]
  intro c hc
  simp [h c hc]

/-- Configuration of the token-budget counterexample: fallback counter,
budget 5, overlap 5. -/
def tokCexC : SemanticChunker := ⟨5, 5, fallback_count⟩

/-- Section of the token-budget counterexample: seven two-letter
paragraphs, each counting zero tokens under the fallback counter. -/
def tokCexSec : MDSection :=
  ⟨none, 0, str "ab\n\nab\n\nab\n\nab\n\nab\n\nab\n\nab", 0⟩

/-- The single chunk the splitter emits for `tokCexSec`: all seven
paragraphs accumulate (each adds zero tokens), and the final flush
re-counts the raw buffer — 28 characters, 7 tokens — exceeding the
budget of 5. -/
def tokCexChunk : Chunk :=
  ⟨str "c_d_0", str "d", str "cl", 0,
   str "ab\n\nab\n\nab\n\nab\n\nab\n\nab\n\nab", none, 0, str "general", 7⟩

/-- C1 counterexample: a chunk produced purely by the paragraph
accumulation path (its text is seven paragraphs — not an oversized
indivisible sentence) records a token count of 7, exceeding the
configured budget of 5. -/
theorem split_section_token_bound_counterexample :
    split_section_into_chunks tokCexC tokCexSec (str "d") (str "cl") 0 =
      ([tokCexChunk], 1) ∧
    ¬ ((tokCexChunk.token_count : Int) ≤ tokCexC.chunk_size) := by
  refine ⟨by decide, by decide⟩

/-- Configuration of the token-bound witness: non-whitespace-character
counter, budget 6, overlap 2. -/
def tokWitC : SemanticChunker := ⟨6, 2, nonws_count⟩

/-- Section of the token-bound witness: an oversized first paragraph
split by sentences, then a flushed second paragraph. -/
def tokWitSec : MDSection := ⟨none, 0, str "ab cd. ef.\n\nxx yy", 0⟩

/-- The first chunk emitted for `tokWitSec`. -/
def tokWitChunk : Chunk :=
  ⟨str "c_d_0", str "d", str "c", 0, str "ab cd.", none, 0,
   str "general", 5⟩

/-- Witness for `split_section_token_bound` at a section whose splitting
exercises the sentence path and a flush. -/
theorem split_section_token_bound_witness :
    (tokWitChunk.token_count : Int) ≤
      tokWitC.chunk_size + max tokWitC.chunk_overlap 0 :=
  split_section_token_bound tokWitC tokWitSec (str "d") (str "c") 0
    nonws_count_additive nonws_count_wszero (by decide) tokWitChunk
    (by
      have h : (split_section_into_chunks tokWitC tokWitSec (str "d")
          (str "c") 0).1 =
          [tokWitChunk,
           ⟨str "c_d_1", str "d", str "c", 1, str "ef.", none, 0,
            str "general", 3⟩,
           ⟨str "c_d_2", str "d", str "c", 2, str "xx yy", none, 0,
            str "general", 4⟩] := by decide
      rw [h]
      exact List.mem_cons_self _ _)
